import Mathlib

/-!
Shallow embedding of the Orbital chemistry toolkit core
(`src/chem/core/{atom,bond,molecule}.py`, `src/chem/io/smiles.py`,
`src/chem/validators/core.py`) and verification of the specification's
claims about it.

Modelling conventions:
* Python floats carrying bond orders are modelled as exact rationals `ℚ`
  (all orders occurring in the code are 1.0, 1.5, 2.0, 3.0, whose sums are
  exact in both models).
* Python dictionaries keyed by strings (atom metadata) are association
  lists with first-match lookup and in-place update, which matches
  CPython's insertion-ordered dict on the operations the code performs.
* Python sets accumulated during searches are modelled as lists with
  append-if-absent insertion; only membership and final contents matter.
* Character classification (`isalpha`, `islower`, `isdigit`) is modelled
  on the ASCII range, the range exercised by the grammar.
-/

unseal Rat.add Rat.sub Rat.mul Rat.inv Rat.ofScientific

namespace Orbital

/-- Metadata dictionary lookup: `metadata.get(key)` with falsy default. -/
def metaGet (md : List (String × Bool)) (k : String) : Bool :=
  (md.lookup k).getD false

/-- Metadata dictionary assignment: `metadata[key] = v`. -/
def metaSet (md : List (String × Bool)) (k : String) (v : Bool) : List (String × Bool) :=
  match md with
  | [] => [(k, v)]
  | (k', v') :: rest => if k' = k then (k, v) :: rest else (k', v') :: metaSet rest k v

/-- `chem.core.atom.Atom` (fields not used by any claim are omitted:
coordinates, isotope, stereochemistry). -/
structure Atom where
  symbol : String
  charge : Int := 0
  metadata : List (String × Bool) := []
deriving DecidableEq

instance : Inhabited Atom := ⟨⟨"", 0, []⟩⟩

/-- `chem.core.bond.Bond` (stereochemistry and metadata omitted; no claim
reads them). -/
structure Bond where
  atoms : Nat × Nat
  order : ℚ := 1
  aromatic : Bool := false
deriving DecidableEq

instance : Inhabited Bond := ⟨⟨(0, 0), 1, false⟩⟩

/-- `chem.core.molecule.Molecule`. -/
structure Molecule where
  atoms : List Atom := []
  bonds : List Bond := []
deriving DecidableEq

instance : Inhabited Molecule := ⟨⟨[], []⟩⟩

/-- Python `set(bond.atoms) == {a, b}` for a pair of indices. -/
def pairSetEq (p : Nat × Nat) (a b : Nat) : Bool :=
  (p.1 = a ∧ p.2 = b) ∨ (p.1 = b ∧ p.2 = a)

/-- `Molecule.get_bond`: first bond whose endpoint set is `{a, b}`. -/
def Molecule.get_bond (m : Molecule) (a b : Nat) : Option Bond :=
  m.bonds.find? (fun bd => pairSetEq bd.atoms a b)

/-- `Molecule.bonds_for_atom`: bonds having `i` as an endpoint, in list order. -/
def Molecule.bonds_for_atom (m : Molecule) (i : Nat) : List Bond :=
  m.bonds.filter (fun bd => bd.atoms.1 = i ∨ bd.atoms.2 = i)

/-- Aromatic metadata flag of atom `i` (false when absent or out of range). -/
def Molecule.aromaticFlag (m : Molecule) (i : Nat) : Bool :=
  metaGet (m.atoms.getD i default).metadata "aromatic"

/-! ## Ring / aromaticity classifier (`chem/validators/core.py`) -/

/-- The adjacency list built at the top of `_find_cycles` (and of
`to_smiles`): for atom `i`, the `(neighbor, bond index)` entries
contributed by each bond in bond-list order. -/
def adjacencyOf (m : Molecule) (i : Nat) : List (Nat × Nat) :=
  m.bonds.enum.flatMap (fun p =>
    (if p.2.atoms.1 = i then [(p.2.atoms.2, p.1)] else []) ++
    (if p.2.atoms.2 = i then [(p.2.atoms.1, p.1)] else []))

/-- Append-if-absent insertion, modelling `set.add` / `s | {x}`. -/
def setAdd (l : List Nat) (x : Nat) : List Nat :=
  if x ∈ l then l else l ++ [x]

/-- Ascending insertion, auxiliary for `pySorted`. -/
def insSorted (x : Nat) : List Nat → List Nat
  | [] => [x]
  | y :: ys => if x ≤ y then x :: y :: ys else y :: insSorted x ys

/-- Python `sorted` on a list of numbers (insertion sort; on `Nat` the
result is the unique ascending rearrangement, as for any sort). -/
def pySorted (l : List Nat) : List Nat :=
  l.foldr insSorted []

/-- One `dfs` call of `_find_cycles`: explores from `current` extending
`path`, accumulating canonical forms `sorted(path ++ [start])` of the
cycles found.  `fuel` bounds the recursion depth; the caller passes enough
fuel for the `max_length` bound, so exhaustion is unreachable. -/
def dfsFindCycles (adj : Nat → List (Nat × Nat)) (maxLength : Nat) (start : Nat) :
    Nat → Nat → List Nat → List Nat → List (List Nat) → List (List Nat)
  | 0, _, _, _, cycles => cycles
  | fuel + 1, current, path, usedBonds, cycles =>
    (adj current).foldl
      (fun cycles nb =>
        if nb.2 ∈ usedBonds then cycles
        else if nb.1 = start ∧ 3 ≤ path.length then
          let canonical := pySorted (path ++ [start])
          if canonical ∈ cycles then cycles else cycles ++ [canonical]
        else if nb.1 ∈ path then cycles
        else if maxLength ≤ path.length then cycles
        else dfsFindCycles adj maxLength start fuel nb.1 (path ++ [nb.1])
          (usedBonds ++ [nb.2]) cycles)
      cycles

/-- `_find_cycles(molecule, max_length)`: canonical duplicate-free cycle
records from every start atom, each truncated by `cycle[:-1]` (dropping the
largest entry of the sorted record, since the record is sorted). -/
def find_cycles (m : Molecule) (maxLength : Nat) : List (List Nat) :=
  let adj := adjacencyOf m
  let canons := (List.range m.atoms.length).foldl
    (fun cycles s => dfsFindCycles adj maxLength s (maxLength + 1) s [s] [] cycles) []
  canons.map List.dropLast

/-- The aromaticity test applied to one bond: explicitly flagged aromatic,
or order within `1e-6` of `1.5`, or order exactly `2.0`. -/
def bondQualifies (bd : Bond) : Bool :=
  bd.aromatic || |bd.order - 3/2| < 1/1000000 || bd.order = 2

/-- The per-cycle aromaticity walk of `detect_aromatic_rings`: every
cyclically consecutive pair must be joined by a qualifying bond. -/
def cycleQualifies (m : Molecule) (cycle : List Nat) : Bool :=
  (List.range cycle.length).all (fun i =>
    match m.get_bond (cycle.getD i 0) (cycle.getD ((i + 1) % cycle.length) 0) with
    | none => false
    | some bd => bondQualifies bd)

/-- Marking one atom: `if not atom.metadata.get("aromatic"):
atom.metadata["aromatic"] = True` (out-of-range indices leave the molecule
unchanged in the model; in Python they cannot occur on molecules satisfying
the bond-validity invariant). -/
def markAtom (m : Molecule) (idx : Nat) : Molecule :=
  let atom := m.atoms.getD idx default
  if metaGet atom.metadata "aromatic" then m
  else { m with atoms := m.atoms.set idx { atom with metadata := metaSet atom.metadata "aromatic" true } }

/-- `detect_aromatic_rings`: filters the found cycles by the aromaticity
walk and marks the atoms of accepted cycles; returns the accepted cycles
together with the updated molecule (the Python function mutates the
molecule in place). -/
def detect_aromatic_rings (m : Molecule) : List (List Nat) × Molecule :=
  (find_cycles m 8).foldl
    (fun acc cycle =>
      if cycleQualifies acc.2 cycle then (acc.1 ++ [cycle], cycle.foldl markAtom acc.2)
      else acc)
    ([], m)

/-! ## SMILES parser (`chem/io/smiles.py`, `parse_smiles`) -/

/-- The five fatal parser errors of `parse_smiles` / `_parse_element`. -/
inductive PErr where
  | unexpectedToken (c : Char)
  | branchNoAtom
  | unbalancedParen
  | ringNoAtom
  | unclosedRing
deriving DecidableEq

/-- The scan state of `parse_smiles`: the molecule built so far, the branch
stack (head = top, matching Python `append`/`pop` at the end), the open
ring-closure table, the previous atom, and the pending bond order /
aromatic flag. -/
structure PState where
  mol : Molecule
  stack : List Nat
  rings : List (Char × (Nat × ℚ × Bool))
  prev : Option Nat
  order : ℚ
  aromBond : Bool

/-- `_SYMBOL_TO_ORDER` (callers only apply it to one of the four symbols). -/
def symbolOrder (c : Char) : ℚ :=
  if c = '-' then 1 else if c = '=' then 2 else if c = '#' then 3 else 3/2

/-- The atom-token step of the scan loop: append the atom, emit the bond to
the previous atom (if any) with the pending order — upgraded to `1.5` and
flagged aromatic when the new atom is aromatic — and reset pending state. -/
def stepAtom (st : PState) (symbol : String) (aromaticAtom : Bool) : PState :=
  let md : List (String × Bool) := if aromaticAtom then [("aromatic", true)] else []
  let atomIndex := st.mol.atoms.length
  let newOrder : ℚ := if aromaticAtom then (if st.order = 1 then 3/2 else st.order) else st.order
  let newBond : Bond := ⟨(st.prev.getD 0, atomIndex), newOrder, st.aromBond || aromaticAtom⟩
  let mol1 : Molecule := { st.mol with atoms := st.mol.atoms ++ [⟨symbol, 0, md⟩] }
  let mol2 : Molecule :=
    if st.prev.isSome then { mol1 with bonds := mol1.bonds ++ [newBond] } else mol1
  ⟨mol2, st.stack, st.rings, some atomIndex, 1, false⟩

/-- First sighting of a ring digit: record the previous atom and the
pending bond state (aromatic if the pending bond or the previous atom is). -/
def stepRingOpen (st : PState) (c : Char) (p : Nat) : PState :=
  let aromaticPrev := if st.mol.atoms.isEmpty then false else st.mol.aromaticFlag p
  let rings := st.rings ++ [(c, (p, st.order, st.aromBond || aromaticPrev))]
  ⟨st.mol, st.stack, rings, st.prev, 1, false⟩

/-- Second sighting of a ring digit: emit the closure bond. -/
def stepRingClose (st : PState) (c : Char) (p : Nat) (r : Nat × ℚ × Bool) : PState :=
  let bd : Bond := ⟨(r.1, p), r.2.1, r.2.2 || st.aromBond || st.mol.aromaticFlag p⟩
  let mol : Molecule := { st.mol with bonds := st.mol.bonds ++ [bd] }
  ⟨mol, st.stack, st.rings.eraseP (fun e => e.1 = c), st.prev, 1, false⟩

/-- The scan loop of `parse_smiles`, dispatching on the current character
in the source's order (bond symbol, `(`, `)`, digit, element via
`_parse_element`, otherwise unexpected token).  The element token logic of
`_parse_element` is inlined: a lower-case letter is a one-letter aromatic
atom; an upper-case letter absorbs one following lower-case letter. -/
def parseLoop (st : PState) : List Char → Except PErr Molecule
  | [] => if st.rings.isEmpty then .ok st.mol else .error .unclosedRing
  | c :: cs =>
    if c = '-' ∨ c = '=' ∨ c = '#' ∨ c = ':' then
      parseLoop { st with order := symbolOrder c, aromBond := c = ':' } cs
    else if c = '(' then
      if st.prev.isSome then parseLoop { st with stack := st.prev.getD 0 :: st.stack } cs
      else .error .branchNoAtom
    else if c = ')' then
      if st.stack.isEmpty then .error .unbalancedParen
      else parseLoop { st with prev := some (st.stack.headD 0), stack := st.stack.tail } cs
    else if c.isDigit then
      if st.prev.isSome then
        if (st.rings.lookup c).isSome then
          parseLoop (stepRingClose st c (st.prev.getD 0) ((st.rings.lookup c).getD default)) cs
        else parseLoop (stepRingOpen st c (st.prev.getD 0)) cs
      else .error .ringNoAtom
    else if c.isAlpha then
      if c.isLower then
        parseLoop (stepAtom st (String.singleton c.toUpper) true) cs
      else
        match cs with
        | d :: ds =>
          if d.isLower then parseLoop (stepAtom st ⟨[c, d]⟩ false) ds
          else parseLoop (stepAtom st (String.singleton c) false) (d :: ds)
        | [] => parseLoop (stepAtom st (String.singleton c) false) []
    else .error (.unexpectedToken c)

/-- The initial scan state of `parse_smiles`. -/
def initState : PState := ⟨⟨[], []⟩, [], [], none, 1, false⟩

/-- `parse_smiles`. -/
def parse_smiles (s : String) : Except PErr Molecule :=
  parseLoop initState s.data

/-! ## SMILES serializer (`chem/io/smiles.py`, `to_smiles`) -/

/-- The mutable traversal state of `to_smiles`: visited atoms, consumed
bond indices, assigned ring labels. -/
structure SState where
  visitedAtoms : List Nat
  visitedBonds : List Nat
  ringIds : List ((Nat × Nat) × Nat)

/-- `_atom_to_smiles`: lower-case the symbol when the aromatic flag is set. -/
def atom_to_smiles (a : Atom) : String :=
  if metaGet a.metadata "aromatic" then a.symbol.toLower else a.symbol

/-- `_BOND_SYMBOLS.get(order, "")`. -/
def BOND_SYMBOLS (o : ℚ) : String :=
  if o = 1 then "" else if o = 2 then "=" else if o = 3 then "#" else if o = 3/2 then "" else ""

/-- The bond symbol emitted by `traverse`, including the redundant
"aromatic order-1.0 bonds print nothing" override of the source. -/
def bondSymbolFor (bd : Bond) : String :=
  if bd.aromatic && bd.order = 1 then "" else BOND_SYMBOLS bd.order

mutual

/-- The recursive `traverse` of `to_smiles`.  `fuel` bounds the recursion
depth; each recursive call enters a previously unvisited atom, so
`to_smiles` passes `atoms.length`, which is never exhausted. -/
def traverse (m : Molecule) (adj : Nat → List (Nat × Nat)) :
    Nat → Nat → Option Nat → SState → String × SState
  | 0, _, _, st => ("", st)
  | fuel + 1, atomIdx, parent, st0 =>
    let st1 : SState := ⟨setAdd st0.visitedAtoms atomIdx, st0.visitedBonds, st0.ringIds⟩
    let symbol := atom_to_smiles (m.atoms.getD atomIdx default)
    let res := visitNbrs m adj fuel atomIdx parent (adj atomIdx) (("", []), st1)
    let pieces := res.1
    let out := symbol ++ pieces.1 ++
      (match pieces.2 with
       | [] => ""
       | b :: bs => b ++ String.join (bs.map (fun x => "(" ++ x ++ ")")))
    (out, res.2)

/-- The neighbor loop inside `traverse`: accumulates the ring-closure text
and the collected branches, threading the shared state. -/
def visitNbrs (m : Molecule) (adj : Nat → List (Nat × Nat))
    (fuel atomIdx : Nat) (parent : Option Nat) :
    List (Nat × Nat) → (String × List String) × SState → (String × List String) × SState
  | [], acc => acc
  | nb :: rest, acc =>
    let ringStr := acc.1.1
    let branches := acc.1.2
    let st := acc.2
    let bd := m.bonds.getD nb.2 default
    if nb.2 ∈ st.visitedBonds ∧ parent = some nb.1 then
      visitNbrs m adj fuel atomIdx parent rest acc
    else
      let bsym := bondSymbolFor bd
      if nb.1 ∈ st.visitedAtoms then
        let key := (min atomIdx nb.1, max atomIdx nb.1)
        if (st.ringIds.lookup key).isSome then visitNbrs m adj fuel atomIdx parent rest acc
        else
          let label := st.ringIds.length + 1
          let st' : SState := ⟨st.visitedAtoms, setAdd st.visitedBonds nb.2,
            st.ringIds ++ [(key, label)]⟩
          visitNbrs m adj fuel atomIdx parent rest
            ((ringStr ++ bsym ++ toString label, branches), st')
      else
        let st' : SState := ⟨st.visitedAtoms, setAdd st.visitedBonds nb.2, st.ringIds⟩
        let res := traverse m adj fuel nb.1 (some atomIdx) st'
        let btext := if bsym = "" then res.1 else bsym ++ res.1
        visitNbrs m adj fuel atomIdx parent rest ((ringStr, branches ++ [btext]), res.2)

end

unseal traverse visitNbrs

/-- `to_smiles`: empty string for an atom-less molecule, otherwise a
depth-first traversal from atom 0. -/
def to_smiles (m : Molecule) : String :=
  if m.atoms.isEmpty then ""
  else (traverse m (adjacencyOf m) m.atoms.length 0 none ⟨[], [], []⟩).1

/-! ## Valence validator (`chem/validators/core.py`, `validate_valence`) -/

/-- `_DEFAULT_VALENCE`. -/
def DEFAULT_VALENCE (s : String) : Option Int :=
  if s = "H" then some 1
  else if s = "B" then some 3
  else if s = "C" then some 4
  else if s = "N" then some 3
  else if s = "O" then some 2
  else if s = "F" then some 1
  else if s = "P" then some 5
  else if s = "S" then some 6
  else if s = "Cl" then some 1
  else if s = "Br" then some 1
  else if s = "I" then some 1
  else none

/-- Python `round` on an exact rational: round half to even. -/
def pyRound (q : ℚ) : Int :=
  let f := q.floor
  let r := q - f
  if r < 1/2 then f
  else if 1/2 < r then f + 1
  else if f % 2 = 0 then f else f + 1

/-- The per-atom test of `validate_valence`: the element is in the table
and the rounded incident bond-order sum exceeds `allowed + |charge|`. -/
def valenceViolation (m : Molecule) (i : Nat) (a : Atom) : Bool :=
  match DEFAULT_VALENCE a.symbol with
  | none => false
  | some allowed => allowed + |a.charge| < pyRound (((m.bonds_for_atom i).map Bond.order).sum)

/-- `validate_valence`: raises (here: returns `.error`) at the first atom
exceeding its default valence. -/
def validate_valence (m : Molecule) : Except String Unit :=
  match m.atoms.enum.find? (fun p => valenceViolation m p.1 p.2) with
  | none => .ok ()
  | some p => .error ("Atom " ++ toString p.1 ++ " (" ++ p.2.symbol ++ ") exceeds valence")

/-! ## Spec-side predicates and concrete molecules used by the claims -/

/-- The bond invariant stated by the spec: distinct endpoints, both valid. -/
def bondIndicesValid (m : Molecule) : Prop :=
  ∀ b ∈ m.bonds, b.atoms.1 ≠ b.atoms.2 ∧ b.atoms.1 < m.atoms.length ∧ b.atoms.2 < m.atoms.length

/-- The bond-validity half of the invariant (endpoints in range). -/
def bondsInRange (m : Molecule) : Prop :=
  ∀ b ∈ m.bonds, b.atoms.1 < m.atoms.length ∧ b.atoms.2 < m.atoms.length

/-- The two atoms `a b` are joined by a bond passing the aromaticity test. -/
def qualPair (m : Molecule) (a b : Nat) : Bool :=
  ((m.get_bond a b).map bondQualifies).getD false

/-- Claim-side notion (from the spec's words): an elementary cycle of 3–8
edges, every consecutive pair (cyclically) joined by a bond that is flagged
aromatic, has order within tolerance of 1.5, or has order exactly 2.0. -/
def isAromaticElementaryCycle (m : Molecule) (l : List Nat) : Prop :=
  3 ≤ l.length ∧ l.length ≤ 8 ∧ l.Nodup ∧
  ∀ i < l.length, qualPair m (l.getD i 0) (l.getD ((i + 1) % l.length) 0) = true

/-- Unordered-endpoint key of a bond, with order and aromatic flag. -/
def bondKey (b : Bond) : (Nat × Nat) × ℚ × Bool :=
  ((min b.atoms.1 b.atoms.2, max b.atoms.1 b.atoms.2), b.order, b.aromatic)

/-- Equality of the two molecules' bond multisets (unordered endpoint
pairs with order and aromatic flag), the bond part of the round-trip
isomorphism. -/
def sameBondMultiset (m₁ m₂ : Molecule) : Prop :=
  (m₁.bonds.map bondKey).Perm (m₂.bonds.map bondKey)

/-- Atom `i` exceeds its default valence: its element symbol is in the
valence table with value `allowed`, and the rounded sum of the orders of
its incident bonds strictly exceeds `allowed` plus the absolute value of
its formal charge. -/
def valenceExceeded (m : Molecule) (i : Nat) : Prop :=
  ∃ allowed, DEFAULT_VALENCE (m.atoms.getD i default).symbol = some allowed ∧
    allowed + |(m.atoms.getD i default).charge| <
      pyRound (((m.bonds_for_atom i).map Bond.order).sum)

/-- A plain carbon atom. -/
def atomC : Atom := ⟨"C", 0, []⟩

/-- The macrocycle of `test_aromatic_detection_large_ring`: 10 carbons in a
single ring, all bonds order 1.5 with aromatic flag false. -/
def ring10 : Molecule :=
  ⟨[atomC, atomC, atomC, atomC, atomC, atomC, atomC, atomC, atomC, atomC],
   [⟨(0, 1), 3/2, false⟩, ⟨(1, 2), 3/2, false⟩, ⟨(2, 3), 3/2, false⟩,
    ⟨(3, 4), 3/2, false⟩, ⟨(4, 5), 3/2, false⟩, ⟨(5, 6), 3/2, false⟩,
    ⟨(6, 7), 3/2, false⟩, ⟨(7, 8), 3/2, false⟩, ⟨(8, 9), 3/2, false⟩,
    ⟨(9, 0), 3/2, false⟩]⟩

/-- A benzene ring whose atom indices are not consecutive along the ring:
the cycle visits 0-2-4-1-3-5. All bonds aromatic of order 1.5. -/
def scrambledRing : Molecule :=
  ⟨[atomC, atomC, atomC, atomC, atomC, atomC],
   [⟨(0, 2), 3/2, true⟩, ⟨(2, 4), 3/2, true⟩, ⟨(4, 1), 3/2, true⟩,
    ⟨(1, 3), 3/2, true⟩, ⟨(3, 5), 3/2, true⟩, ⟨(5, 0), 3/2, true⟩]⟩

/-- A connected 4-atom molecule in which atom 1 carries two branches. -/
def molBranch : Molecule :=
  ⟨[atomC, atomC, atomC, atomC],
   [⟨(0, 1), 1, false⟩, ⟨(1, 2), 1, false⟩, ⟨(1, 3), 1, false⟩]⟩

/-- The straight chain that `to_smiles molBranch` actually re-parses to. -/
def molBranchReparsed : Molecule :=
  ⟨[atomC, atomC, atomC, atomC],
   [⟨(0, 1), 1, false⟩, ⟨(1, 2), 1, false⟩, ⟨(2, 3), 1, false⟩]⟩

/-- The one-atom-one-self-loop molecule that `parse_smiles "C11"` returns. -/
def molSelfLoop : Molecule := ⟨[atomC], [⟨(0, 0), 1, false⟩]⟩

/-- Scan invariant of the parser: all recorded atom indices (bond
endpoints, previous atom, branch stack, open ring records) are valid
indices of the molecule built so far. -/
def PInv (st : PState) : Prop :=
  (∀ b ∈ st.mol.bonds, b.atoms.1 < st.mol.atoms.length ∧ b.atoms.2 < st.mol.atoms.length) ∧
  (∀ p, st.prev = some p → p < st.mol.atoms.length) ∧
  (∀ q ∈ st.stack, q < st.mol.atoms.length) ∧
  (∀ e ∈ st.rings, e.2.1 < st.mol.atoms.length)

/-- Modelled from the spec (§4.1, §7): the abstract scan state named by the
parser-error conditions — whether an atom has been read, the branch-stack
depth, and the currently open ring labels. -/
structure AbsState where
  seenAtom : Bool
  depth : Nat
  openRings : List Char

/-- Modelled from the spec: a ring digit toggles its label open/closed. -/
def toggleRing (open_ : List Char) (c : Char) : List Char :=
  if c ∈ open_ then open_.erase c else open_ ++ [c]

/-- Modelled from the spec (§4.1, §7): the first of the five error
conditions hit while scanning — unexpected token; branch-close with empty
branch stack; branch-open before any atom; ring digit before any atom;
or, at end of input, a ring label still open — and `none` when none occurs. -/
def specScan (st : AbsState) : List Char → Option PErr
  | [] => if st.openRings.isEmpty then none else some .unclosedRing
  | c :: cs =>
    if c = '-' ∨ c = '=' ∨ c = '#' ∨ c = ':' then specScan st cs
    else if c = '(' then
      if st.seenAtom then specScan ⟨st.seenAtom, st.depth + 1, st.openRings⟩ cs
      else some .branchNoAtom
    else if c = ')' then
      if st.depth = 0 then some .unbalancedParen
      else specScan ⟨st.seenAtom, st.depth - 1, st.openRings⟩ cs
    else if c.isDigit then
      if st.seenAtom then specScan ⟨st.seenAtom, st.depth, toggleRing st.openRings c⟩ cs
      else some .ringNoAtom
    else if c.isAlpha then
      if c.isLower then specScan ⟨true, st.depth, st.openRings⟩ cs
      else
        match cs with
        | d :: ds =>
          if d.isLower then specScan ⟨true, st.depth, st.openRings⟩ ds
          else specScan ⟨true, st.depth, st.openRings⟩ (d :: ds)
        | [] => specScan ⟨true, st.depth, st.openRings⟩ []
    else some (.unexpectedToken c)

/-- The error component of a parse result. -/
def parseErrOf : Except PErr Molecule → Option PErr
  | .ok _ => none
  | .error e => some e

/-- Relation between the parser's scan state and the spec-modelled
abstract state: an atom has been read iff a previous atom exists, the
branch-stack depth matches, the open ring labels are the keys of the ring
table, and before the first atom neither stack nor ring table can be
non-empty. -/
def PAbsRel (st : PState) (a : AbsState) : Prop :=
  st.prev.isSome = a.seenAtom ∧
  st.stack.length = a.depth ∧
  st.rings.map Prod.fst = a.openRings ∧
  (st.prev = none → st.stack = [] ∧ st.rings = [])

/-- A symbol the serializer and parser transport verbatim for a
non-aromatic atom: one upper-case ASCII letter, optionally followed by one
lower-case ASCII letter. -/
def validPlainSymbol (s : String) : Prop :=
  match s.data with
  | [u] => u.isUpper
  | [u, l] => u.isUpper ∧ l.isLower
  | _ => False

/-- A linear-chain molecule: at least one atom; plain symbols, zero
charges, empty metadata; bonds exactly `(i, i+1)` in index order, each
non-aromatic of order 1, 2 or 3. -/
def isChainMol (m : Molecule) : Prop :=
  m.atoms ≠ [] ∧
  (∀ a ∈ m.atoms, validPlainSymbol a.symbol ∧ a.charge = 0 ∧ a.metadata = []) ∧
  m.bonds.length = m.atoms.length - 1 ∧
  ∀ i < m.bonds.length,
    (m.bonds.getD i default).atoms = (i, i + 1) ∧
    (m.bonds.getD i default).aromatic = false ∧
    ((m.bonds.getD i default).order = 1 ∨ (m.bonds.getD i default).order = 2 ∨
      (m.bonds.getD i default).order = 3)

/-- The notation string of a chain from atom `k` on, with `r` atoms left:
the atom symbols interleaved with the bond symbols. -/
def chainStrFrom (m : Molecule) : Nat → Nat → String
  | _, 0 => ""
  | k, 1 => (m.atoms.getD k default).symbol
  | k, r + 2 =>
    (m.atoms.getD k default).symbol ++ bondSymbolFor (m.bonds.getD k default) ++
      chainStrFrom m (k + 1) (r + 1)

/-- The parser state reached after scanning the chain notation up to (not
including) atom `k`'s symbol: `k` atoms and `k-1` bonds built, previous
atom `k-1`, pending order as set by the bond symbol before atom `k`. -/
def chainPState (m : Molecule) (k : Nat) : PState :=
  ⟨⟨m.atoms.take k, m.bonds.take (k - 1)⟩, [], [],
   if k = 0 then none else some (k - 1),
   if k = 0 then 1 else (m.bonds.getD (k - 1) default).order,
   false⟩

/-- The serializer state on entry to atom `k` of a chain: atoms `0..k-1`
visited, bonds `0..k-1` consumed (the bond into `k` is consumed by the
caller just before recursing), no ring labels. -/
def chainSState (k : Nat) : SState :=
  ⟨List.range k, List.range k, []⟩

instance {ε α : Type} [DecidableEq ε] [DecidableEq α] : DecidableEq (Except ε α) := fun x y =>
  match x, y with
  | .ok a, .ok b =>
    if h : a = b then .isTrue (by subst h; rfl)
    else .isFalse (by intro hc; cases hc; exact h rfl)
  | .error e, .error f =>
    if h : e = f then .isTrue (by subst h; rfl)
    else .isFalse (by intro hc; cases hc; exact h rfl)
  | .ok _, .error _ => .isFalse (by intro hc; cases hc)
  | .error _, .ok _ => .isFalse (by intro hc; cases hc)

instance (m : Molecule) : Decidable (bondIndicesValid m) := by
  unfold bondIndicesValid; infer_instance

instance (m : Molecule) : Decidable (bondsInRange m) := by
  unfold bondsInRange; infer_instance

instance (m : Molecule) (l : List Nat) : Decidable (isAromaticElementaryCycle m l) := by
  unfold isAromaticElementaryCycle; infer_instance

instance (m₁ m₂ : Molecule) : Decidable (sameBondMultiset m₁ m₂) := by
  unfold sameBondMultiset; infer_instance

instance (s : String) : Decidable (validPlainSymbol s) := by
  unfold validPlainSymbol
  cases h : s.data with
  | nil => exact isFalse (fun hc => hc)
  | cons u tl =>
    cases tl with
    | nil => exact inferInstanceAs (Decidable (u.isUpper = true))
    | cons l tl2 =>
      cases tl2 with
      | nil => exact inferInstanceAs (Decidable (u.isUpper = true ∧ l.isLower = true))
      | cons x tl3 => exact isFalse (fun hc => hc)

instance (m : Molecule) : Decidable (isChainMol m) := by
  unfold isChainMol
  infer_instance

set_option maxRecDepth 100000

/-- The benzene ring of `test_aromatic_detection_from_structure`: six
carbons joined in a ring by bonds of order 1.5 flagged aromatic. -/
def benzeneRing : Molecule :=
  ⟨[atomC, atomC, atomC, atomC, atomC, atomC],
   [⟨(0, 1), 3/2, true⟩, ⟨(1, 2), 3/2, true⟩, ⟨(2, 3), 3/2, true⟩,
    ⟨(3, 4), 3/2, true⟩, ⟨(4, 5), 3/2, true⟩, ⟨(5, 0), 3/2, true⟩]⟩

/-! # Theorems -/

/-- C4 (code_bug evidence): on the 10-atom macrocycle of order-1.5 bonds,
`detect_aromatic_rings` returns no cycle at all and leaves the molecule
unchanged — the path-length bound of 8 edges in `_find_cycles` prevents the
10-edge ring from ever being recorded, contradicting the claim (and the
repository's own test `test_aromatic_detection_large_ring`, which asserts
exactly one cycle of all 10 atoms and all atoms flagged). -/
theorem C4_code_behavior : detect_aromatic_rings ring10 = ([], ring10) := by decide

/-- C5: on the graph parsed from "c1ccccc1", `detect_aromatic_rings`
returns exactly one cycle, consisting of the six atom indices. -/
theorem C5_benzene_single_cycle :
    (parse_smiles "c1ccccc1").map (fun m => (detect_aromatic_rings m).1) =
      .ok [[0, 1, 2, 3, 4, 5]] := by decide

/-- C6: `parse_smiles "c1ccccc1"` yields 6 atoms, all carrying the aromatic
metadata flag, and 6 bonds, all with the aromatic flag set. -/
theorem C6_benzene_parse :
    (parse_smiles "c1ccccc1").map (fun m =>
      (m.atoms.length, m.atoms.all (fun a => metaGet a.metadata "aromatic"),
       m.bonds.length, m.bonds.all Bond.aromatic)) = .ok (6, true, 6, true) := by decide

/-- C9: "CCO" parses to 3 atoms and 2 bonds of order 1.0, and serializing
the parsed graph returns "CCO". -/
theorem C9_cco_round_trip :
    (parse_smiles "CCO").map (fun m =>
      (m.atoms.length, m.bonds.length, m.bonds.all (fun b => b.order = 1), to_smiles m)) =
      .ok (3, 2, true, "CCO") := by decide

/-- C3 counterexample: `parse_smiles "C11"` succeeds and returns a bond
both of whose endpoints are atom 0, violating the distinctness half of the
claimed bond invariant. -/
theorem C3_counterexample :
    parse_smiles "C11" = .ok molSelfLoop ∧ ¬ bondIndicesValid molSelfLoop := by decide

/-- C2 counterexample: `scrambledRing` contains an elementary cycle of six
atoms whose bonds are all aromatic of order 1.5, yet `detect_aromatic_rings`
returns no cycle and flags no atom — the claim's "exactly the elementary
cycles" fails because deduplication keys cycles by `sorted(path + [start])`
and only entries whose atoms are consecutive in sorted order survive the
per-cycle bond walk. -/
theorem C2_counterexample :
    isAromaticElementaryCycle scrambledRing [0, 2, 4, 1, 3, 5] ∧
    detect_aromatic_rings scrambledRing = ([], scrambledRing) := by decide

/-- C1 counterexample: for the connected 4-atom molecule `molBranch` (atom
1 bonded to 0, 2 and 3), serialization yields "CCC(C)", which re-parses
without error to a straight chain: the bond multiset (unordered endpoint
pairs with order and aromatic flag) is not preserved, so the re-parsed
graph is not isomorphic to the input. -/
theorem C1_counterexample :
    molBranch.atoms ≠ [] ∧
    to_smiles molBranch = "CCC(C)" ∧
    parse_smiles (to_smiles molBranch) = .ok molBranchReparsed ∧
    ¬ sameBondMultiset molBranchReparsed molBranch := by decide

/-- The per-atom boolean test agrees with the claim-side predicate. -/
theorem valenceViolation_iff (m : Molecule) (i : Nat) :
    valenceViolation m i (m.atoms.getD i default) = true ↔ valenceExceeded m i := by
  unfold valenceViolation valenceExceeded
  cases h : DEFAULT_VALENCE (m.atoms.getD i default).symbol with
  | none => simp [h]
  | some allowed => simp [h]

/-- C10: `validate_valence` reports an error if and only if some atom of
the molecule exceeds its default valence (element in the table, rounded
incident bond-order sum above `allowed + |charge|`); atoms whose elements
are outside the table never trigger it. -/
theorem C10_valence_error_iff (m : Molecule) :
    (∃ s, validate_valence m = .error s) ↔ ∃ i < m.atoms.length, valenceExceeded m i := by
  unfold validate_valence
  constructor
  · rintro ⟨s, hs⟩
    cases hfind : m.atoms.enum.find? (fun p => valenceViolation m p.1 p.2) with
    | none => rw [hfind] at hs; simp at hs
    | some p =>
      have hmem := List.mem_of_find?_eq_some hfind
      have hp := List.find?_some hfind
      have hidx : m.atoms[p.1]? = some p.2 := List.mem_enum_iff_getElem?.mp hmem
      have hlt : p.1 < m.atoms.length := by
        have := List.getElem?_eq_some.mp hidx
        exact this.1
      refine ⟨p.1, hlt, ?_⟩
      rw [← valenceViolation_iff]
      have hgetD : m.atoms.getD p.1 default = p.2 := by
        simp [List.getD_eq_getElem?_getD, hidx]
      rw [hgetD]
      exact hp
  · rintro ⟨i, hi, hex⟩
    cases hfind : m.atoms.enum.find? (fun p => valenceViolation m p.1 p.2) with
    | none =>
      exfalso
      have hmem : (i, m.atoms.getD i default) ∈ m.atoms.enum := by
        apply List.mem_enum_iff_getElem?.mpr
        simp [List.getD_eq_getElem?_getD, List.getElem?_eq_getElem hi]
      have := List.find?_eq_none.mp hfind _ hmem
      rw [valenceViolation_iff m i] at this
      · exact this hex
    | some p => exact ⟨_, rfl⟩

/-! ### C3: parser state invariant -/

theorem lookup_mem {α β : Type} [BEq α] [LawfulBEq α] (k : α) (v : β) :
    ∀ l : List (α × β), l.lookup k = some v → (k, v) ∈ l := by
  intro l
  induction l with
  | nil => intro h; simp [List.lookup] at h
  | cons hd tl ih =>
    obtain ⟨a, b⟩ := hd
    intro h
    rw [List.lookup] at h
    split at h
    · cases h
      next heq =>
        have : k = a := eq_of_beq heq
        subst this
        exact List.mem_cons_self _ _
    · exact List.mem_cons_of_mem _ (ih h)

theorem PInv_initState : PInv initState := by
  refine ⟨?_, ?_, ?_, ?_⟩
  · intro b hb; simp [initState] at hb
  · intro p hp; simp [initState] at hp
  · intro q hq; simp [initState] at hq
  · intro e he; simp [initState] at he

theorem stepAtom_mol_atoms (st : PState) (sym : String) (ar : Bool) :
    (stepAtom st sym ar).mol.atoms =
      st.mol.atoms ++ [⟨sym, 0, if ar then [("aromatic", true)] else []⟩] := by
  by_cases h : st.prev.isSome <;> by_cases h2 : ar <;> simp [stepAtom, h, h2]

theorem stepAtom_mol_bonds (st : PState) (sym : String) (ar : Bool) :
    (stepAtom st sym ar).mol.bonds =
      st.mol.bonds ++
        (if st.prev.isSome then
          [⟨(st.prev.getD 0, st.mol.atoms.length),
            if ar then (if st.order = 1 then 3/2 else st.order) else st.order,
            st.aromBond || ar⟩]
         else []) := by
  by_cases h : st.prev.isSome <;> by_cases h2 : ar <;> simp [stepAtom, h, h2]

theorem stepAtom_prev (st : PState) (sym : String) (ar : Bool) :
    (stepAtom st sym ar).prev = some st.mol.atoms.length := by
  unfold stepAtom; rfl

theorem stepAtom_stack (st : PState) (sym : String) (ar : Bool) :
    (stepAtom st sym ar).stack = st.stack := by
  unfold stepAtom; rfl

theorem stepAtom_rings (st : PState) (sym : String) (ar : Bool) :
    (stepAtom st sym ar).rings = st.rings := by
  unfold stepAtom; rfl

theorem PInv_stepAtom (st : PState) (sym : String) (ar : Bool) (h : PInv st) :
    PInv (stepAtom st sym ar) := by
  obtain ⟨hb, hp, hs, hr⟩ := h
  refine ⟨?_, ?_, ?_, ?_⟩
  · intro b hb'
    rw [stepAtom_mol_bonds] at hb'
    rw [stepAtom_mol_atoms, List.length_append]
    rcases List.mem_append.mp hb' with hb' | hb'
    · have := hb b hb'
      omega
    · by_cases hsome : st.prev.isSome
      · rw [if_pos hsome] at hb'
        rw [List.mem_singleton] at hb'
        subst hb'
        obtain ⟨p, hpeq⟩ := Option.isSome_iff_exists.mp hsome
        have := hp p hpeq
        have hget : st.prev.getD 0 = p := by rw [hpeq]; rfl
        simp only [hget]
        simp
        omega
      · rw [if_neg hsome] at hb'
        simp at hb'
  · intro q hq
    rw [stepAtom_prev] at hq
    cases hq
    rw [stepAtom_mol_atoms, List.length_append]
    simp
  · intro q hq
    rw [stepAtom_stack] at hq
    have := hs q hq
    rw [stepAtom_mol_atoms, List.length_append]
    omega
  · intro e he
    rw [stepAtom_rings] at he
    have := hr e he
    rw [stepAtom_mol_atoms, List.length_append]
    omega

theorem PInv_stepRingOpen (st : PState) (c : Char) (p : Nat)
    (hp : st.prev = some p) (h : PInv st) : PInv (stepRingOpen st c p) := by
  obtain ⟨hb, hpv, hs, hr⟩ := h
  have hplt := hpv p hp
  refine ⟨?_, ?_, ?_, ?_⟩
  · intro b hb'; exact hb b hb'
  · intro q hq; exact hpv q hq
  · intro q hq; exact hs q hq
  · intro e he
    have he' : e ∈ st.rings ++
        [(c, (p, st.order, st.aromBond ||
          (if st.mol.atoms.isEmpty then false else st.mol.aromaticFlag p)))] := he
    rcases List.mem_append.mp he' with h2 | h2
    · exact hr e h2
    · rw [List.mem_singleton] at h2
      subst h2
      exact hplt

theorem PInv_stepRingClose (st : PState) (c : Char) (p : Nat) (r : Nat × ℚ × Bool)
    (hp : st.prev = some p) (hlk : st.rings.lookup c = some r) (h : PInv st) :
    PInv (stepRingClose st c p r) := by
  obtain ⟨hb, hpv, hs, hr⟩ := h
  have hplt := hpv p hp
  have hrmem : (c, r) ∈ st.rings := lookup_mem c r st.rings hlk
  have hrlt : r.1 < st.mol.atoms.length := hr (c, r) hrmem
  refine ⟨?_, ?_, ?_, ?_⟩
  · intro b hb'
    have hb2 : b ∈ st.mol.bonds ++
        [⟨(r.1, p), r.2.1, r.2.2 || st.aromBond || st.mol.aromaticFlag p⟩] := hb'
    rcases List.mem_append.mp hb2 with h2 | h2
    · exact hb b h2
    · rw [List.mem_singleton] at h2
      subst h2
      exact ⟨hrlt, hplt⟩
  · intro q hq; exact hpv q hq
  · intro q hq; exact hs q hq
  · intro e he
    have he' : e ∈ st.rings.eraseP (fun x => x.1 = c) := he
    exact hr e (List.mem_of_mem_eraseP he')

theorem parseLoop_bondsInRange (st : PState) (cs : List Char) :
    ∀ m : Molecule, PInv st → parseLoop st cs = .ok m → bondsInRange m := by
  induction st, cs using parseLoop.induct with
  | case1 st hre =>
    intro m hinv hok
    rw [parseLoop.eq_def] at hok
    simp only [hre, reduceIte] at hok
    cases hok
    exact hinv.1
  | case2 st hre =>
    intro m hinv hok
    rw [parseLoop.eq_def] at hok
    simp only [if_neg hre] at hok
    cases hok
  | case3 st c cs hcond ih =>
    intro m hinv hok
    rw [parseLoop.eq_def] at hok
    simp only [if_pos hcond] at hok
    exact ih m ⟨hinv.1, hinv.2.1, hinv.2.2.1, hinv.2.2.2⟩ hok
  | case4 st cs hsome hcond ih =>
    intro m hinv hok
    rw [parseLoop.eq_def] at hok
    simp only [if_neg hcond, hsome, reduceIte] at hok
    obtain ⟨p, hpeq⟩ := Option.isSome_iff_exists.mp hsome
    refine ih m ?_ hok
    obtain ⟨hb, hp, hs, hr⟩ := hinv
    refine ⟨hb, hp, ?_, hr⟩
    intro q hq
    rcases List.mem_cons.mp hq with hq | hq
    · rw [hq, hpeq]
      exact hp p hpeq
    · exact hs q hq
  | case5 st cs hnsome hcond =>
    intro m hinv hok
    rw [parseLoop.eq_def] at hok
    simp only [if_neg hcond, if_neg hnsome, reduceIte] at hok
    cases hok
  | case6 st cs hemp hcond hne =>
    intro m hinv hok
    rw [parseLoop.eq_def] at hok
    simp only [if_neg hcond, if_neg hne, hemp, reduceIte] at hok
    cases hok
  | case7 st cs hnemp hcond hne ih =>
    intro m hinv hok
    rw [parseLoop.eq_def] at hok
    simp only [if_neg hcond, if_neg hne, if_neg hnemp, reduceIte] at hok
    refine ih m ?_ hok
    obtain ⟨hb, hp, hs, hr⟩ := hinv
    refine ⟨hb, ?_, ?_, hr⟩
    · intro q hq
      have hq2 : some (st.stack.headD 0) = some q := hq
      cases hq2
      show st.stack.headD 0 < st.mol.atoms.length
      cases hst : st.stack with
      | nil => rw [hst] at hnemp; simp at hnemp
      | cons y ys =>
        exact hs y (by rw [hst]; exact List.mem_cons_self _ _)
    · intro q hq
      have hq2 : q ∈ st.stack.tail := hq
      show q < st.mol.atoms.length
      cases hst : st.stack with
      | nil => rw [hst] at hnemp; simp at hnemp
      | cons y ys =>
        rw [hst] at hq2
        exact hs q (by rw [hst]; exact List.mem_cons_of_mem _ hq2)
  | case8 st c cs hcond hpar hcl hdig hsome hlk ih =>
    intro m hinv hok
    rw [parseLoop.eq_def] at hok
    simp only [if_neg hcond, if_neg hpar, if_neg hcl, hdig, hsome, hlk, reduceIte] at hok
    obtain ⟨p, hpeq⟩ := Option.isSome_iff_exists.mp hsome
    obtain ⟨r, hreq⟩ := Option.isSome_iff_exists.mp hlk
    have hinv' : PInv (stepRingClose st c (st.prev.getD 0) ((st.rings.lookup c).getD default)) := by
      rw [hpeq, hreq]
      exact PInv_stepRingClose st c p r hpeq hreq hinv
    exact ih m hinv' hok
  | case9 st c cs hcond hpar hcl hdig hsome hnlk ih =>
    intro m hinv hok
    rw [parseLoop.eq_def] at hok
    simp only [if_neg hcond, if_neg hpar, if_neg hcl, hdig, hsome, if_neg hnlk, reduceIte] at hok
    obtain ⟨p, hpeq⟩ := Option.isSome_iff_exists.mp hsome
    have hinv' : PInv (stepRingOpen st c (st.prev.getD 0)) := by
      rw [hpeq]
      exact PInv_stepRingOpen st c p hpeq hinv
    exact ih m hinv' hok
  | case10 st c cs hcond hpar hcl hdig hnsome =>
    intro m hinv hok
    rw [parseLoop.eq_def] at hok
    simp only [if_neg hcond, if_neg hpar, if_neg hcl, hdig, if_neg hnsome, reduceIte] at hok
    cases hok
  | case11 st c cs hcond hpar hcl hndig hal hlow ih =>
    intro m hinv hok
    rw [parseLoop.eq_def] at hok
    simp only [if_neg hcond, if_neg hpar, if_neg hcl, if_neg hndig, hal, hlow, reduceIte] at hok
    exact ih m (PInv_stepAtom st _ true hinv) hok
  | case12 st c hcond hpar hcl hndig hal hnlow d ds hdlow ih =>
    intro m hinv hok
    rw [parseLoop.eq_def] at hok
    simp only [if_neg hcond, if_neg hpar, if_neg hcl, if_neg hndig, hal, if_neg hnlow,
      hdlow, reduceIte] at hok
    exact ih m (PInv_stepAtom st _ false hinv) hok
  | case13 st c hcond hpar hcl hndig hal hnlow d ds hndlow ih =>
    intro m hinv hok
    rw [parseLoop.eq_def] at hok
    simp only [if_neg hcond, if_neg hpar, if_neg hcl, if_neg hndig, hal, if_neg hnlow,
      if_neg hndlow, reduceIte] at hok
    exact ih m (PInv_stepAtom st _ false hinv) hok
  | case14 st c hcond hpar hcl hndig hal hnlow ih =>
    intro m hinv hok
    rw [parseLoop.eq_def] at hok
    simp only [if_neg hcond, if_neg hpar, if_neg hcl, if_neg hndig, hal, if_neg hnlow,
      reduceIte] at hok
    exact ih m (PInv_stepAtom st _ false hinv) hok
  | case15 st c cs hcond hpar hcl hndig hnal =>
    intro m hinv hok
    rw [parseLoop.eq_def] at hok
    simp only [if_neg hcond, if_neg hpar, if_neg hcl, if_neg hndig, if_neg hnal, reduceIte] at hok
    cases hok

/-- C3 as amended: every graph returned by `parse_smiles` has all bond
endpoints valid indices into its atom sequence (the distinctness half of
the claimed invariant fails, see the counterexample). -/
theorem C3_parse_bonds_in_range (s : String) (m : Molecule)
    (h : parse_smiles s = .ok m) : bondsInRange m :=
  parseLoop_bondsInRange initState s.data m PInv_initState h

/-- Witness for `C3_parse_bonds_in_range` at the input "CCO". -/
theorem C3_parse_bonds_in_range_witness : bondsInRange molBranchReparsed :=
  C3_parse_bonds_in_range "CCCC" molBranchReparsed (by decide)

/-! ### C2 / C8: classifier lemmas -/

theorem markAtom_bonds (m : Molecule) (i : Nat) : (markAtom m i).bonds = m.bonds := by
  by_cases hf : metaGet (m.atoms.getD i default).metadata "aromatic" = true
  · simp only [markAtom]
    rw [if_pos hf]
  · simp only [markAtom]
    rw [if_neg hf]

theorem markAtom_atoms_length (m : Molecule) (i : Nat) :
    (markAtom m i).atoms.length = m.atoms.length := by
  by_cases hf : metaGet (m.atoms.getD i default).metadata "aromatic" = true
  · simp only [markAtom]
    rw [if_pos hf]
  · simp only [markAtom]
    rw [if_neg hf]
    simp

theorem markList_bonds (c : List Nat) (m : Molecule) : (c.foldl markAtom m).bonds = m.bonds := by
  induction c generalizing m with
  | nil => rfl
  | cons j rest ih => simp only [List.foldl_cons]; rw [ih, markAtom_bonds]

theorem markList_atoms_length (c : List Nat) (m : Molecule) :
    (c.foldl markAtom m).atoms.length = m.atoms.length := by
  induction c generalizing m with
  | nil => rfl
  | cons j rest ih => simp only [List.foldl_cons]; rw [ih, markAtom_atoms_length]

theorem get_bond_congr {m₁ m₂ : Molecule} (h : m₁.bonds = m₂.bonds) (a b : Nat) :
    m₁.get_bond a b = m₂.get_bond a b := by
  unfold Molecule.get_bond; rw [h]

theorem cycleQualifies_congr {m₁ m₂ : Molecule} (h : m₁.bonds = m₂.bonds) (c : List Nat) :
    cycleQualifies m₁ c = cycleQualifies m₂ c := by
  unfold cycleQualifies
  congr 1
  funext i
  rw [get_bond_congr h]

theorem adjacencyOf_congr {m₁ m₂ : Molecule} (h : m₁.bonds = m₂.bonds) :
    adjacencyOf m₁ = adjacencyOf m₂ := by
  funext i; unfold adjacencyOf; rw [h]

theorem find_cycles_congr {m₁ m₂ : Molecule} (hb : m₁.bonds = m₂.bonds)
    (hl : m₁.atoms.length = m₂.atoms.length) (k : Nat) :
    find_cycles m₁ k = find_cycles m₂ k := by
  unfold find_cycles
  rw [adjacencyOf_congr hb, hl]

theorem metaGet_metaSet (md : List (String × Bool)) (k : String) (v : Bool) :
    metaGet (metaSet md k v) k = v := by
  induction md with
  | nil => simp [metaSet, metaGet, List.lookup]
  | cons hd tl ih =>
    obtain ⟨k', v'⟩ := hd
    unfold metaSet
    by_cases h : k' = k
    · rw [if_pos h]; simp [metaGet, List.lookup]
    · rw [if_neg h]
      unfold metaGet at ih ⊢
      rw [List.lookup]
      have hbeq : (k == k') = false := beq_eq_false_iff_ne.mpr (fun he => h he.symm)
      rw [hbeq]
      exact ih

theorem aromaticFlag_markAtom (m : Molecule) (i j : Nat) :
    (markAtom m j).aromaticFlag i =
      if i = j ∧ j < m.atoms.length then true else m.aromaticFlag i := by
  unfold markAtom Molecule.aromaticFlag
  by_cases hf : metaGet (m.atoms.getD j default).metadata "aromatic"
  · rw [if_pos hf]
    by_cases hc : i = j ∧ j < m.atoms.length
    · rw [if_pos hc]
      obtain ⟨he, _⟩ := hc
      subst he
      exact hf
    · rw [if_neg hc]
  · rw [if_neg hf]
    by_cases hj : j < m.atoms.length
    · by_cases hij : i = j
      · subst hij
        rw [if_pos ⟨rfl, hj⟩]
        show metaGet ((m.atoms.set i _).getD i default).metadata "aromatic" = true
        have hset : (m.atoms.set i { m.atoms.getD i default with
            metadata := metaSet (m.atoms.getD i default).metadata "aromatic" true }).getD i default =
            { m.atoms.getD i default with
              metadata := metaSet (m.atoms.getD i default).metadata "aromatic" true } := by
          simp [List.getD_eq_getElem?_getD, List.getElem?_set_self', List.getElem?_eq_getElem hj]
        rw [hset]
        exact metaGet_metaSet _ _ _
      · rw [if_neg (fun hc => hij hc.1)]
        show metaGet ((m.atoms.set j _).getD i default).metadata "aromatic" = _
        rw [show (m.atoms.set j _).getD i default = m.atoms.getD i default from by
          simp [List.getD_eq_getElem?_getD, List.getElem?_set_ne (fun he => hij he.symm)]]
    · rw [if_neg (fun hc => hj hc.2)]
      rw [List.set_eq_of_length_le (Nat.le_of_not_lt hj)]

theorem aromaticFlag_markAtom_mono {m : Molecule} {i : Nat} (j : Nat)
    (h : m.aromaticFlag i = true) : (markAtom m j).aromaticFlag i = true := by
  rw [aromaticFlag_markAtom]
  split
  · rfl
  · exact h

theorem markList_flag_mono (c : List Nat) {m : Molecule} {i : Nat}
    (h : m.aromaticFlag i = true) : (c.foldl markAtom m).aromaticFlag i = true := by
  induction c generalizing m with
  | nil => exact h
  | cons j rest ih =>
    simp only [List.foldl_cons]
    exact ih (aromaticFlag_markAtom_mono j h)

theorem markList_flag_of_mem (c : List Nat) {m : Molecule} {i : Nat}
    (hmem : i ∈ c) (hlen : i < m.atoms.length) :
    (c.foldl markAtom m).aromaticFlag i = true := by
  induction c generalizing m with
  | nil => cases hmem
  | cons j rest ih =>
    simp only [List.foldl_cons]
    rcases List.mem_cons.mp hmem with he | hmem'
    · subst he
      apply markList_flag_mono
      rw [aromaticFlag_markAtom, if_pos ⟨rfl, hlen⟩]
    · exact ih hmem' (by rw [markAtom_atoms_length]; exact hlen)

theorem markAtom_noop {m : Molecule} {j : Nat}
    (h : j < m.atoms.length → m.aromaticFlag j = true) : markAtom m j = m := by
  by_cases hj : j < m.atoms.length
  · have hflag := h hj
    unfold Molecule.aromaticFlag at hflag
    simp only [markAtom]
    rw [if_pos hflag]
  · have hd : m.atoms.getD j default = default := List.getD_eq_default _ _ (Nat.le_of_not_lt hj)
    simp only [markAtom]
    rw [hd]
    rw [if_neg (by decide)]
    rw [List.set_eq_of_length_le (Nat.le_of_not_lt hj)]

theorem markList_noop {c : List Nat} {m : Molecule}
    (h : ∀ i ∈ c, i < m.atoms.length → m.aromaticFlag i = true) : c.foldl markAtom m = m := by
  induction c with
  | nil => rfl
  | cons j rest ih =>
    simp only [List.foldl_cons]
    rw [markAtom_noop (h j (List.mem_cons_self _ _))]
    exact ih (fun i hi => h i (List.mem_cons_of_mem _ hi))

theorem detect_fold_spec (cs : List (List Nat)) (l : List (List Nat)) (m0 mref : Molecule)
    (hb : m0.bonds = mref.bonds) :
    cs.foldl (fun acc cycle =>
        if cycleQualifies acc.2 cycle then (acc.1 ++ [cycle], cycle.foldl markAtom acc.2)
        else acc) (l, m0) =
      (l ++ cs.filter (fun c => cycleQualifies mref c),
       (cs.filter (fun c => cycleQualifies mref c)).foldl
         (fun mm c => c.foldl markAtom mm) m0) := by
  induction cs generalizing l m0 with
  | nil => simp
  | cons c rest ih =>
    simp only [List.foldl_cons, List.filter_cons]
    have hq : cycleQualifies m0 c = cycleQualifies mref c := cycleQualifies_congr hb c
    by_cases h : cycleQualifies mref c = true
    · rw [hq, h]
      simp only [if_true, List.foldl_cons]
      rw [ih (l ++ [c]) (c.foldl markAtom m0) (by rw [markList_bonds]; exact hb)]
      simp [List.append_assoc]
    · have h' : cycleQualifies mref c = false := by
        cases hv : cycleQualifies mref c
        · rfl
        · exact absurd hv h
      rw [hq, h']
      simp only [Bool.false_eq_true, if_false]
      exact ih l m0 hb

theorem detect_spec (m : Molecule) :
    detect_aromatic_rings m =
      ((find_cycles m 8).filter (fun c => cycleQualifies m c),
       ((find_cycles m 8).filter (fun c => cycleQualifies m c)).foldl
         (fun mm c => c.foldl markAtom mm) m) := by
  unfold detect_aromatic_rings
  rw [detect_fold_spec (find_cycles m 8) [] m m rfl]
  simp

theorem markFold_bonds (cs : List (List Nat)) (m : Molecule) :
    (cs.foldl (fun mm c => c.foldl markAtom mm) m).bonds = m.bonds := by
  induction cs generalizing m with
  | nil => rfl
  | cons c rest ih =>
    simp only [List.foldl_cons]
    rw [ih, markList_bonds]

theorem markFold_atoms_length (cs : List (List Nat)) (m : Molecule) :
    (cs.foldl (fun mm c => c.foldl markAtom mm) m).atoms.length = m.atoms.length := by
  induction cs generalizing m with
  | nil => rfl
  | cons c rest ih =>
    simp only [List.foldl_cons]
    rw [ih, markList_atoms_length]

theorem markFold_flag_mono (cs : List (List Nat)) {m : Molecule} {i : Nat}
    (h : m.aromaticFlag i = true) :
    (cs.foldl (fun mm c => c.foldl markAtom mm) m).aromaticFlag i = true := by
  induction cs generalizing m with
  | nil => exact h
  | cons c rest ih =>
    simp only [List.foldl_cons]
    exact ih (markList_flag_mono c h)

theorem markFold_flag_of_mem (cs : List (List Nat)) {m : Molecule} {cyc : List Nat} {i : Nat}
    (hcyc : cyc ∈ cs) (hi : i ∈ cyc) (hlen : i < m.atoms.length) :
    (cs.foldl (fun mm c => c.foldl markAtom mm) m).aromaticFlag i = true := by
  induction cs generalizing m with
  | nil => cases hcyc
  | cons c rest ih =>
    simp only [List.foldl_cons]
    rcases List.mem_cons.mp hcyc with he | hcyc'
    · subst he
      exact markFold_flag_mono rest (markList_flag_of_mem cyc hi hlen)
    · exact ih hcyc' (by rw [markList_atoms_length]; exact hlen)

theorem markFold_noop {cs : List (List Nat)} {m : Molecule}
    (h : ∀ cyc ∈ cs, ∀ i ∈ cyc, i < m.atoms.length → m.aromaticFlag i = true) :
    cs.foldl (fun mm c => c.foldl markAtom mm) m = m := by
  induction cs with
  | nil => rfl
  | cons c rest ih =>
    simp only [List.foldl_cons]
    rw [markList_noop (h c (List.mem_cons_self _ _))]
    exact ih (fun cyc hcyc => h cyc (List.mem_cons_of_mem _ hcyc))

/-- C8: `detect_aromatic_rings` is idempotent. -/
theorem C8_detect_idempotent (m : Molecule) :
    detect_aromatic_rings (detect_aromatic_rings m).2 = detect_aromatic_rings m := by
  have hspec := detect_spec m
  have h2 : (detect_aromatic_rings m).2 =
      ((find_cycles m 8).filter (fun c => cycleQualifies m c)).foldl
        (fun mm c => c.foldl markAtom mm) m := by rw [hspec]
  have hb : (detect_aromatic_rings m).2.bonds = m.bonds := by rw [h2]; exact markFold_bonds _ _
  have hl : (detect_aromatic_rings m).2.atoms.length = m.atoms.length := by
    rw [h2]; exact markFold_atoms_length _ _
  rw [detect_spec ((detect_aromatic_rings m).2)]
  have hFeq : find_cycles (detect_aromatic_rings m).2 8 = find_cycles m 8 :=
    find_cycles_congr hb hl 8
  have hfun : (fun c => cycleQualifies (detect_aromatic_rings m).2 c) =
      (fun c => cycleQualifies m c) := funext (fun c => cycleQualifies_congr hb c)
  rw [hFeq, hfun, hspec]
  have hnoop : ((find_cycles m 8).filter (fun c => cycleQualifies m c)).foldl
      (fun mm c => c.foldl markAtom mm)
      (((find_cycles m 8).filter (fun c => cycleQualifies m c)).foldl
        (fun mm c => c.foldl markAtom mm) m) =
      ((find_cycles m 8).filter (fun c => cycleQualifies m c)).foldl
        (fun mm c => c.foldl markAtom mm) m := by
    apply markFold_noop
    intro cyc hcyc i hi hlen
    rw [markFold_atoms_length] at hlen
    exact markFold_flag_of_mem _ hcyc hi hlen
  exact congrArg (Prod.mk _) hnoop

theorem matchOpt_eq (o : Option Bond) :
    (match o with | none => false | some bd => bondQualifies bd) =
      (o.map bondQualifies).getD false := by
  cases o <;> rfl

theorem cycleQualifies_iff (m : Molecule) (c : List Nat) :
    cycleQualifies m c = true ↔
      ∀ i < c.length, qualPair m (c.getD i 0) (c.getD ((i + 1) % c.length) 0) = true := by
  unfold cycleQualifies
  rw [List.all_eq_true]
  constructor
  · intro h i hi
    have := h i (List.mem_range.mpr hi)
    unfold qualPair
    rw [← matchOpt_eq]
    exact this
  · intro h i hi
    have := h i (List.mem_range.mp hi)
    rw [matchOpt_eq]
    exact this

/-- C2 as amended: every entry returned by `detect_aromatic_rings` has all
its cyclically consecutive pairs joined by bonds passing the aromaticity
test, and afterwards every atom occurring in a returned entry carries the
aromatic metadata flag. -/
theorem C2_detect_sound_and_marks (m : Molecule) (hv : bondsInRange m) :
    ∀ cyc ∈ (detect_aromatic_rings m).1,
      (∀ i < cyc.length,
        qualPair m (cyc.getD i 0) (cyc.getD ((i + 1) % cyc.length) 0) = true) ∧
      ∀ i ∈ cyc, (detect_aromatic_rings m).2.aromaticFlag i = true := by
  intro cyc hcyc
  have h1 : (detect_aromatic_rings m).1 =
      (find_cycles m 8).filter (fun c => cycleQualifies m c) := by rw [detect_spec]
  have h2 : (detect_aromatic_rings m).2 =
      ((find_cycles m 8).filter (fun c => cycleQualifies m c)).foldl
        (fun mm c => c.foldl markAtom mm) m := by rw [detect_spec]
  rw [h1] at hcyc
  obtain ⟨hmem, hqual⟩ := List.mem_filter.mp hcyc
  refine ⟨(cycleQualifies_iff m cyc).mp hqual, ?_⟩
  intro i hi
  obtain ⟨idx, hidx, hgi⟩ := List.mem_iff_getElem.mp hi
  have hq := (cycleQualifies_iff m cyc).mp hqual idx hidx
  rw [List.getD_eq_getElem _ _ hidx, hgi] at hq
  unfold qualPair at hq
  cases hgb : m.get_bond i (cyc.getD ((idx + 1) % cyc.length) 0) with
  | none => rw [hgb] at hq; simp at hq
  | some bd =>
    have hbdmem : bd ∈ m.bonds := List.mem_of_find?_eq_some hgb
    have hpred := List.find?_some hgb
    have hrange := hv bd hbdmem
    have hilen : i < m.atoms.length := by
      unfold pairSetEq at hpred
      simp only [decide_eq_true_eq] at hpred
      rcases hpred with ⟨ha, _⟩ | ⟨_, hb'⟩
      · rw [← ha]; exact hrange.1
      · rw [← hb']; exact hrange.2
    rw [h2]
    exact markFold_flag_of_mem _ hcyc hi hilen

/-- Witness for `C2_detect_sound_and_marks` at the benzene ring built
directly from bonds of order 1.5 flagged aromatic. -/
theorem C2_detect_sound_and_marks_witness :
    bondsInRange benzeneRing ∧
      ∀ cyc ∈ (detect_aromatic_rings benzeneRing).1,
        (∀ i < cyc.length,
          qualPair benzeneRing (cyc.getD i 0) (cyc.getD ((i + 1) % cyc.length) 0) = true) ∧
        ∀ i ∈ cyc, (detect_aromatic_rings benzeneRing).2.aromaticFlag i = true :=
  ⟨by decide, C2_detect_sound_and_marks benzeneRing (by decide)⟩

/-! ### C7: parser error characterization -/

theorem lookup_isSome_iff_mem_keys {β : Type} (l : List (Char × β)) (c : Char) :
    (l.lookup c).isSome = true ↔ c ∈ l.map Prod.fst := by
  induction l with
  | nil => simp [List.lookup]
  | cons hd tl ih =>
    obtain ⟨k, v⟩ := hd
    rw [List.lookup]
    by_cases h : c = k
    · subst h
      simp
    · have hbeq : (c == k) = false := beq_eq_false_iff_ne.mpr h
      rw [hbeq]
      simp only [List.map_cons, List.mem_cons]
      constructor
      · intro hs
        exact Or.inr (ih.mp hs)
      · intro hm
        rcases hm with hm | hm
        · exact absurd hm h
        · exact ih.mpr hm

theorem eraseP_map_fst {β : Type} (l : List (Char × β)) (c : Char) :
    (l.eraseP (fun e => e.1 = c)).map Prod.fst = (l.map Prod.fst).erase c := by
  induction l with
  | nil => rfl
  | cons hd tl ih =>
    obtain ⟨k, v⟩ := hd
    by_cases h : k = c
    · subst h
      simp [List.eraseP_cons, List.erase_cons_head]
    · have hb : (k == c) = false := beq_eq_false_iff_ne.mpr h
      rw [List.map_cons, List.erase_cons, hb]
      simp [List.eraseP_cons, h, ih]

theorem parseLoop_specScan (st : PState) (cs : List Char) :
    ∀ a : AbsState, PAbsRel st a → parseErrOf (parseLoop st cs) = specScan a cs := by
  induction st, cs using parseLoop.induct with
  | case1 st hre =>
    intro a hrel
    obtain ⟨h1, h2, h3, h4⟩ := hrel
    rw [parseLoop.eq_def, specScan.eq_def]
    simp only [hre, reduceIte]
    have hnil : st.rings = [] := List.isEmpty_iff.mp hre
    have haopen : a.openRings.isEmpty = true := by rw [← h3, hnil]; rfl
    rw [haopen]
    simp [parseErrOf]
  | case2 st hre =>
    intro a hrel
    obtain ⟨h1, h2, h3, h4⟩ := hrel
    rw [parseLoop.eq_def, specScan.eq_def]
    have hre' : st.rings.isEmpty = false := by
      cases hv : st.rings.isEmpty
      · rfl
      · exact absurd hv hre
    have hne : st.rings ≠ [] := fun hc => hre (by rw [hc]; rfl)
    have haopen : a.openRings.isEmpty = false := by
      rw [← h3]
      rcases hv : st.rings with _ | ⟨e, es⟩
      · exact absurd hv hne
      · rfl
    rw [hre', haopen]
    simp [parseErrOf]
  | case3 st c cs hcond ih =>
    intro a hrel
    obtain ⟨h1, h2, h3, h4⟩ := hrel
    rw [parseLoop.eq_def, specScan.eq_def]
    simp only [if_pos hcond]
    exact ih a ⟨h1, h2, h3, h4⟩
  | case4 st cs hsome hcond ih =>
    intro a hrel
    obtain ⟨h1, h2, h3, h4⟩ := hrel
    rw [parseLoop.eq_def, specScan.eq_def]
    simp only [if_neg hcond, hsome, reduceIte]
    have hseen : a.seenAtom = true := by rw [← h1]; exact hsome
    rw [hseen]
    simp only [reduceIte]
    refine ih ⟨true, a.depth + 1, a.openRings⟩ ⟨?_, ?_, ?_, ?_⟩
    · exact hsome
    · simp [h2]
    · exact h3
    · intro hnone
      rw [hnone] at hsome
      simp at hsome
  | case5 st cs hnsome hcond =>
    intro a hrel
    obtain ⟨h1, h2, h3, h4⟩ := hrel
    rw [parseLoop.eq_def, specScan.eq_def]
    simp only [if_neg hcond, if_neg hnsome, reduceIte]
    have hseen : a.seenAtom = false := by
      rw [← h1]
      cases hv : st.prev.isSome
      · rfl
      · exact absurd hv hnsome
    rw [hseen]
    simp [parseErrOf]
  | case6 st cs hemp hcond hne =>
    intro a hrel
    obtain ⟨h1, h2, h3, h4⟩ := hrel
    rw [parseLoop.eq_def, specScan.eq_def]
    simp only [if_neg hcond, if_neg hne, hemp, reduceIte]
    have hdep : a.depth = 0 := by
      rw [← h2]
      rcases hv : st.stack with _ | ⟨y, ys⟩
      · rfl
      · rw [hv] at hemp; simp [List.isEmpty] at hemp
    rw [hdep]
    simp [parseErrOf]
  | case7 st cs hnemp hcond hne ih =>
    intro a hrel
    obtain ⟨h1, h2, h3, h4⟩ := hrel
    rw [parseLoop.eq_def, specScan.eq_def]
    simp only [if_neg hcond, if_neg hne, if_neg hnemp, reduceIte]
    have hstackne : st.stack ≠ [] := by
      intro hc
      rw [hc] at hnemp
      simp at hnemp
    have hdep : ¬ a.depth = 0 := by
      rw [← h2]
      rcases hv : st.stack with _ | ⟨y, ys⟩
      · exact absurd hv hstackne
      · simp
    rw [if_neg hdep]
    have hprevsome : st.prev.isSome = true := by
      cases hv : st.prev with
      | some p => rfl
      | none => exact absurd (h4 hv).1 hstackne
    refine ih ⟨a.seenAtom, a.depth - 1, a.openRings⟩ ⟨?_, ?_, ?_, ?_⟩
    · rw [← h1]
      exact hprevsome.symm ▸ rfl
    · rw [← h2]
      rcases hv : st.stack with _ | ⟨y, ys⟩
      · exact absurd hv hstackne
      · simp
    · exact h3
    · intro hnone
      cases hnone
  | case8 st c cs hcond hpar hcl hdig hsome hlk ih =>
    intro a hrel
    obtain ⟨h1, h2, h3, h4⟩ := hrel
    rw [parseLoop.eq_def, specScan.eq_def]
    simp only [if_neg hcond, if_neg hpar, if_neg hcl, hdig, hsome, hlk, reduceIte]
    have hseen : a.seenAtom = true := by rw [← h1]; exact hsome
    rw [hseen]
    simp only [reduceIte]
    have hmem : c ∈ a.openRings := by
      rw [← h3]
      exact (lookup_isSome_iff_mem_keys st.rings c).mp hlk
    refine ih ⟨true, a.depth, toggleRing a.openRings c⟩ ⟨?_, ?_, ?_, ?_⟩
    · exact hsome
    · exact h2
    · show (st.rings.eraseP (fun e => e.1 = c)).map Prod.fst = toggleRing a.openRings c
      rw [toggleRing, if_pos hmem, eraseP_map_fst, h3]
    · intro hnone
      exfalso
      have hnone' : st.prev = none := hnone
      rw [hnone'] at hsome
      simp at hsome
  | case9 st c cs hcond hpar hcl hdig hsome hnlk ih =>
    intro a hrel
    obtain ⟨h1, h2, h3, h4⟩ := hrel
    rw [parseLoop.eq_def, specScan.eq_def]
    simp only [if_neg hcond, if_neg hpar, if_neg hcl, hdig, hsome, if_neg hnlk, reduceIte]
    have hseen : a.seenAtom = true := by rw [← h1]; exact hsome
    rw [hseen]
    simp only [reduceIte]
    have hnmem : c ∉ a.openRings := by
      rw [← h3]
      intro hc
      exact hnlk ((lookup_isSome_iff_mem_keys st.rings c).mpr hc)
    refine ih ⟨true, a.depth, toggleRing a.openRings c⟩ ⟨?_, ?_, ?_, ?_⟩
    · exact hsome
    · exact h2
    · show (st.rings ++ [(c, (st.prev.getD 0, st.order, _))]).map Prod.fst =
        toggleRing a.openRings c
      rw [toggleRing, if_neg hnmem, List.map_append, h3]
      rfl
    · intro hnone
      exfalso
      have hnone' : st.prev = none := hnone
      rw [hnone'] at hsome
      simp at hsome
  | case10 st c cs hcond hpar hcl hdig hnsome =>
    intro a hrel
    obtain ⟨h1, h2, h3, h4⟩ := hrel
    rw [parseLoop.eq_def, specScan.eq_def]
    simp only [if_neg hcond, if_neg hpar, if_neg hcl, hdig, if_neg hnsome, reduceIte]
    have hseen : a.seenAtom = false := by
      rw [← h1]
      cases hv : st.prev.isSome
      · rfl
      · exact absurd hv hnsome
    rw [hseen]
    simp [parseErrOf]
  | case11 st c cs hcond hpar hcl hndig hal hlow ih =>
    intro a hrel
    obtain ⟨h1, h2, h3, h4⟩ := hrel
    rw [parseLoop.eq_def, specScan.eq_def]
    simp only [if_neg hcond, if_neg hpar, if_neg hcl, if_neg hndig, hal, hlow, reduceIte]
    refine ih ⟨true, a.depth, a.openRings⟩ ⟨?_, ?_, ?_, ?_⟩
    · rw [stepAtom_prev]; rfl
    · rw [stepAtom_stack]; exact h2
    · rw [stepAtom_rings]; exact h3
    · intro hnone
      rw [stepAtom_prev] at hnone
      cases hnone
  | case12 st c hcond hpar hcl hndig hal hnlow d ds hdlow ih =>
    intro a hrel
    obtain ⟨h1, h2, h3, h4⟩ := hrel
    rw [parseLoop.eq_def, specScan.eq_def]
    simp only [if_neg hcond, if_neg hpar, if_neg hcl, if_neg hndig, hal, if_neg hnlow,
      hdlow, reduceIte]
    refine ih ⟨true, a.depth, a.openRings⟩ ⟨?_, ?_, ?_, ?_⟩
    · rw [stepAtom_prev]; rfl
    · rw [stepAtom_stack]; exact h2
    · rw [stepAtom_rings]; exact h3
    · intro hnone
      rw [stepAtom_prev] at hnone
      cases hnone
  | case13 st c hcond hpar hcl hndig hal hnlow d ds hndlow ih =>
    intro a hrel
    obtain ⟨h1, h2, h3, h4⟩ := hrel
    rw [parseLoop.eq_def, specScan.eq_def]
    simp only [if_neg hcond, if_neg hpar, if_neg hcl, if_neg hndig, hal, if_neg hnlow,
      if_neg hndlow, reduceIte]
    refine ih ⟨true, a.depth, a.openRings⟩ ⟨?_, ?_, ?_, ?_⟩
    · rw [stepAtom_prev]; rfl
    · rw [stepAtom_stack]; exact h2
    · rw [stepAtom_rings]; exact h3
    · intro hnone
      rw [stepAtom_prev] at hnone
      cases hnone
  | case14 st c hcond hpar hcl hndig hal hnlow ih =>
    intro a hrel
    obtain ⟨h1, h2, h3, h4⟩ := hrel
    rw [parseLoop.eq_def, specScan.eq_def]
    simp only [if_neg hcond, if_neg hpar, if_neg hcl, if_neg hndig, hal, if_neg hnlow,
      reduceIte]
    refine ih ⟨true, a.depth, a.openRings⟩ ⟨?_, ?_, ?_, ?_⟩
    · rw [stepAtom_prev]; rfl
    · rw [stepAtom_stack]; exact h2
    · rw [stepAtom_rings]; exact h3
    · intro hnone
      rw [stepAtom_prev] at hnone
      cases hnone
  | case15 st c cs hcond hpar hcl hndig hnal =>
    intro a hrel
    rw [parseLoop.eq_def, specScan.eq_def]
    simp only [if_neg hcond, if_neg hpar, if_neg hcl, if_neg hndig, if_neg hnal, reduceIte]
    simp [parseErrOf]

/-- C7: `parse_smiles` fails exactly under the five error conditions of the
spec-modelled scanner `specScan` — unexpected token, branch-close with
empty branch stack, branch-open before any atom, ring digit before any
atom, ring label open at end of input — with matching error classes, and
returns a graph on every other input. -/
theorem C7_parser_errors_iff (s : String) :
    parseErrOf (parse_smiles s) = specScan ⟨false, 0, []⟩ s.data :=
  parseLoop_specScan initState s.data ⟨false, 0, []⟩ ⟨rfl, rfl, rfl, fun _ => ⟨rfl, rfl⟩⟩


theorem upper_ne_syms (u : Char) (hu : u.isUpper = true) :
    ¬(u = '-' ∨ u = '=' ∨ u = '#' ∨ u = ':') := by
  rintro (h | h | h | h) <;> subst h <;> exact absurd hu (by decide)

theorem upper_ne_open (u : Char) (hu : u.isUpper = true) : ¬u = '(' := by
  intro h; subst h; exact absurd hu (by decide)

theorem upper_ne_close (u : Char) (hu : u.isUpper = true) : ¬u = ')' := by
  intro h; subst h; exact absurd hu (by decide)

theorem upper_not_digit (u : Char) (hu : u.isUpper = true) : ¬u.isDigit = true := by
  intro hd
  simp only [Char.isUpper, Bool.and_eq_true, decide_eq_true_eq, ge_iff_le] at hu
  simp only [Char.isDigit, Bool.and_eq_true, decide_eq_true_eq, ge_iff_le] at hd
  exact absurd (UInt32.le_trans hu.1 hd.2) (by decide)

theorem upper_isAlpha (u : Char) (hu : u.isUpper = true) : u.isAlpha = true := by
  rw [Char.isAlpha, hu, Bool.true_or]

theorem upper_not_lower (u : Char) (hu : u.isUpper = true) : ¬u.isLower = true := by
  intro hl
  simp only [Char.isUpper, Bool.and_eq_true, decide_eq_true_eq, ge_iff_le] at hu
  simp only [Char.isLower, Bool.and_eq_true, decide_eq_true_eq, ge_iff_le] at hl
  exact absurd (UInt32.le_trans hl.1 hu.2) (by decide)

theorem str_empty_append (s : String) : "" ++ s = s := by
  cases s with
  | mk l => rfl

theorem str_append_empty (s : String) : s ++ "" = s := by
  cases s with
  | mk l =>
    show String.mk (l ++ []) = String.mk l
    rw [List.append_nil]

theorem setAdd_range (k : Nat) : setAdd (List.range k) k = List.range (k + 1) := by
  unfold setAdd
  rw [if_neg (by simp), List.range_succ]

theorem chain_adj_enumFrom (k : Nat) :
    ∀ (bs : List Bond) (s : Nat),
      (∀ j, j < bs.length → (bs.getD j default).atoms = (s + j, s + j + 1)) →
      (List.enumFrom s bs).flatMap (fun p =>
        (if p.2.atoms.1 = k then [(p.2.atoms.2, p.1)] else []) ++
        (if p.2.atoms.2 = k then [(p.2.atoms.1, p.1)] else [])) =
      (if 1 ≤ k ∧ s ≤ k - 1 ∧ k - 1 < s + bs.length then [(k - 1, k - 1)] else []) ++
      (if s ≤ k ∧ k < s + bs.length then [(k + 1, k)] else []) := by
  intro bs
  induction bs with
  | nil =>
    intro s hb
    simp only [List.length_nil]
    rw [if_neg (by omega), if_neg (by omega)]
    rfl
  | cons b bs' ih =>
    intro s hb
    have hb0 : b.atoms = (s, s + 1) := by
      have := hb 0 (by simp)
      simpa using this
    have hbtail : ∀ j, j < bs'.length → (bs'.getD j default).atoms = (s + 1 + j, s + 1 + j + 1) := by
      intro j hj
      have := hb (j + 1) (by simp only [List.length_cons]; omega)
      simp only [List.getD_cons_succ] at this
      rw [show s + 1 + j = s + (j + 1) from by omega]
      exact this
    rw [List.enumFrom_cons, List.flatMap_cons, ih (s + 1) hbtail, hb0]
    simp only [List.length_cons]
    clear ih hb hbtail hb0
    split_ifs <;> first | (exfalso; omega) | (simp_all <;> omega)

theorem chain_adjacency (m : Molecule) (hm : isChainMol m) (k : Nat) :
    adjacencyOf m k =
      (if 1 ≤ k ∧ k - 1 < m.bonds.length then [(k - 1, k - 1)] else []) ++
      (if k < m.bonds.length then [(k + 1, k)] else []) := by
  unfold adjacencyOf
  have hb : ∀ j, j < m.bonds.length → (m.bonds.getD j default).atoms = (0 + j, 0 + j + 1) := by
    intro j hj
    have := (hm.2.2.2 j hj).1
    rw [this]
    simp
  have hrw := chain_adj_enumFrom k m.bonds 0 hb
  have henum : m.bonds.enum = List.enumFrom 0 m.bonds := rfl
  rw [henum, hrw]
  congr 1
  · by_cases h : 1 ≤ k ∧ k - 1 < m.bonds.length
    · rw [if_pos (by omega), if_pos (by omega)]
    · rw [if_neg (by omega), if_neg (by omega)]
  · by_cases h : k < m.bonds.length
    · rw [if_pos (by omega), if_pos (by omega)]
    · rw [if_neg (by omega), if_neg (by omega)]


theorem if_bsym (bs s : String) : (if bs = "" then s else bs ++ s) = bs ++ s := by
  by_cases h : bs = ""
  · rw [if_pos h, h, str_empty_append]
  · rw [if_neg h]

theorem str_append_assoc (a b c : String) : a ++ b ++ c = a ++ (b ++ c) := by
  cases a with
  | mk la =>
    cases b with
    | mk lb =>
      cases c with
      | mk lc =>
        show String.mk ((la ++ lb) ++ lc) = String.mk (la ++ (lb ++ lc))
        rw [List.append_assoc]

theorem chain_atom_plain (m : Molecule) (hm : isChainMol m) (k : Nat)
    (hk : k < m.atoms.length) :
    atom_to_smiles (m.atoms.getD k default) = (m.atoms.getD k default).symbol := by
  have hmem : m.atoms.getD k default ∈ m.atoms := by
    rw [List.getD_eq_getElem _ _ hk]
    exact List.getElem_mem _
  have hmd := (hm.2.1 _ hmem).2.2
  unfold atom_to_smiles
  rw [hmd]
  rfl

theorem chainStrFrom_step (m : Molecule) (k r : Nat) :
    chainStrFrom m k (r + 1 + 1) =
      (m.atoms.getD k default).symbol ++ bondSymbolFor (m.bonds.getD k default) ++
        chainStrFrom m (k + 1) (r + 1) := rfl

theorem chain_traverse (m : Molecule) (hm : isChainMol m) :
    ∀ r k, 1 ≤ r → k + r = m.atoms.length →
      traverse m (adjacencyOf m) r k (if k = 0 then none else some (k - 1)) (chainSState k) =
        (chainStrFrom m k r,
         ⟨List.range m.atoms.length, List.range (m.atoms.length - 1), []⟩) := by
  have hblen : m.bonds.length = m.atoms.length - 1 := hm.2.2.1
  intro r
  induction r with
  | zero => intro k h1 h2; exact absurd h1 (by omega)
  | succ r' ih =>
    intro k hr hk
    rw [traverse.eq_def]
    simp only [chainSState]
    rw [setAdd_range]
    rw [chain_adjacency m hm k]
    by_cases hk0 : k = 0
    · subst hk0
      rw [if_pos rfl]
      rw [if_neg (by omega)]
      rw [List.nil_append]
      by_cases hr0 : r' = 0
      · subst hr0
        rw [if_neg (by omega)]
        rw [visitNbrs.eq_def]
        simp only []
        rw [chain_atom_plain m hm 0 (by omega)]
        rw [chainStrFrom.eq_def]
        simp only []
        rw [str_append_empty, str_append_empty]
        have h1 : m.atoms.length = 1 := by omega
        rw [h1]
      · obtain ⟨r'', rfl⟩ : ∃ r'', r' = r'' + 1 := ⟨r' - 1, by omega⟩
        have ih' := ih 1 (by omega) (by omega)
        rw [if_neg (by omega)] at ih'
        simp only [Nat.sub_self] at ih'
        rw [if_pos (by omega)]
        rw [visitNbrs.eq_def]
        simp only []
        rw [if_neg (by
          intro hc
          exact absurd (List.mem_range.mp hc.1) (by omega))]
        rw [if_neg (by
          intro hc
          exact absurd (List.mem_range.mp hc) (by omega))]
        rw [show setAdd (List.range 0) 0 = List.range 1 from setAdd_range 0]
        rw [show (⟨List.range 1, List.range 1, []⟩ : SState) = chainSState 1 from rfl]
        rw [ih']
        rw [visitNbrs.eq_def]
        simp only [List.nil_append, List.map_nil]
        rw [if_bsym]
        rw [chain_atom_plain m hm 0 (by omega)]
        rw [chainStrFrom_step]
        rw [show String.join [] = "" from rfl]
        rw [str_append_empty, str_append_empty, str_append_assoc]
    · rw [if_neg hk0]
      rw [if_pos (by omega)]
      by_cases hr0 : r' = 0
      · subst hr0
        rw [if_neg (by omega)]
        rw [List.append_nil]
        rw [visitNbrs.eq_def]
        simp only []
        rw [if_pos ⟨List.mem_range.mpr (by omega), trivial⟩]
        rw [visitNbrs.eq_def]
        simp only []
        rw [chain_atom_plain m hm k (by omega)]
        rw [chainStrFrom.eq_def]
        simp only []
        rw [str_append_empty, str_append_empty]
        have h2 : m.atoms.length - 1 = k := by omega
        have h1 : k + 1 = m.atoms.length := by omega
        rw [h2, h1]
      · obtain ⟨r'', rfl⟩ : ∃ r'', r' = r'' + 1 := ⟨r' - 1, by omega⟩
        have ih' := ih (k + 1) (by omega) (by omega)
        rw [if_neg (by omega)] at ih'
        simp only [Nat.add_sub_cancel] at ih'
        rw [if_pos (by omega)]
        simp only [List.singleton_append]
        rw [visitNbrs.eq_def]
        simp only []
        rw [if_pos ⟨List.mem_range.mpr (by omega), trivial⟩]
        rw [visitNbrs.eq_def]
        simp only []
        rw [if_neg (by
          intro hc
          exact absurd (List.mem_range.mp hc.1) (by omega))]
        rw [if_neg (by
          intro hc
          exact absurd (List.mem_range.mp hc) (by omega))]
        rw [setAdd_range]
        rw [show (⟨List.range (k + 1), List.range (k + 1), []⟩ : SState) = chainSState (k + 1)
          from rfl]
        rw [ih']
        rw [visitNbrs.eq_def]
        simp only [List.nil_append, List.map_nil]
        rw [if_bsym]
        rw [chain_atom_plain m hm k (by omega)]
        rw [chainStrFrom_step]
        rw [show String.join [] = "" from rfl]
        rw [str_append_empty, str_append_empty, str_append_assoc]

theorem validPlain_shape (s : String) (hs : validPlainSymbol s) :
    (∃ u, s.data = [u] ∧ u.isUpper = true) ∨
    (∃ u l, s.data = [u, l] ∧ u.isUpper = true ∧ l.isLower = true) := by
  unfold validPlainSymbol at hs
  rcases hd : s.data with _ | ⟨u, _ | ⟨l, _ | ⟨x, tl⟩⟩⟩ <;> rw [hd] at hs <;> simp only [] at hs
  · exact Or.inl ⟨u, rfl, hs⟩
  · exact Or.inr ⟨u, l, rfl, hs.1, hs.2⟩

theorem take_succ_getD {α : Type} [Inhabited α] (l : List α) (n : Nat) (h : n < l.length) :
    l.take (n + 1) = l.take n ++ [l.getD n default] := by
  rw [List.take_succ]
  congr 1
  rw [List.getElem?_eq_getElem h]
  simp [List.getD_eq_getElem?_getD, List.getElem?_eq_getElem h]

theorem getD_mem {α : Type} [Inhabited α] (l : List α) (n : Nat) (h : n < l.length) :
    l.getD n default ∈ l := by
  rw [List.getD_eq_getElem l default h]
  exact List.getElem_mem h

theorem scan_symbol (st : PState) (sym : String) (tail : List Char)
    (hs : validPlainSymbol sym) (ht : (tail.headD 'A').isLower = false) :
    parseLoop st (sym.data ++ tail) = parseLoop (stepAtom st sym false) tail := by
  rcases validPlain_shape sym hs with ⟨u, hd, hu⟩ | ⟨u, l, hd, hu, hl⟩
  · rw [hd, List.singleton_append]
    rw [parseLoop.eq_def]
    simp only []
    rw [if_neg (upper_ne_syms u hu)]
    rw [if_neg (upper_ne_open u hu)]
    rw [if_neg (upper_ne_close u hu)]
    rw [if_neg (upper_not_digit u hu)]
    rw [if_pos (upper_isAlpha u hu)]
    rw [if_neg (upper_not_lower u hu)]
    have hsym : String.singleton u = sym := String.ext (by rw [hd]; rfl)
    cases tail with
    | nil => simp only []; rw [hsym]
    | cons d ds =>
      simp only []
      have ht2 : d.isLower = false := ht
      rw [if_neg (by intro hc; rw [hc] at ht2; exact Bool.noConfusion ht2)]
      rw [hsym]
  · rw [hd]
    simp only [List.cons_append, List.nil_append]
    rw [parseLoop.eq_def]
    simp only []
    rw [if_neg (upper_ne_syms u hu)]
    rw [if_neg (upper_ne_open u hu)]
    rw [if_neg (upper_ne_close u hu)]
    rw [if_neg (upper_not_digit u hu)]
    rw [if_pos (upper_isAlpha u hu)]
    rw [if_neg (upper_not_lower u hu)]
    rw [if_pos hl]
    have hsym : (⟨[u, l]⟩ : String) = sym := String.ext (by rw [hd])
    rw [hsym]

theorem scan_bondchar (st : PState) (c : Char) (cs : List Char)
    (hc : c = '-' ∨ c = '=' ∨ c = '#' ∨ c = ':') :
    parseLoop st (c :: cs) =
      parseLoop ⟨st.mol, st.stack, st.rings, st.prev, symbolOrder c, decide (c = ':')⟩ cs := by
  rw [parseLoop.eq_def]
  simp only []
  rw [if_pos hc]

theorem bondSymbolFor_eval (bd : Bond) (ha : bd.aromatic = false) :
    bondSymbolFor bd = BOND_SYMBOLS bd.order := by
  unfold bondSymbolFor
  rw [ha, Bool.false_and]
  rw [if_neg Bool.false_ne_true]

theorem BOND_SYMBOLS_one : BOND_SYMBOLS 1 = "" := by
  unfold BOND_SYMBOLS; rw [if_pos rfl]

theorem BOND_SYMBOLS_two : BOND_SYMBOLS 2 = "=" := by
  unfold BOND_SYMBOLS; rw [if_neg (by norm_num), if_pos rfl]

theorem BOND_SYMBOLS_three : BOND_SYMBOLS 3 = "#" := by
  unfold BOND_SYMBOLS; rw [if_neg (by norm_num), if_neg (by norm_num), if_pos rfl]

theorem symbolOrder_eq : symbolOrder '=' = 2 := by
  unfold symbolOrder; rw [if_neg (by decide), if_pos rfl]

theorem symbolOrder_hash : symbolOrder '#' = 3 := by
  unfold symbolOrder; rw [if_neg (by decide), if_neg (by decide), if_pos rfl]

theorem stepAtom_chain (m : Molecule) (hm : isChainMol m) (k : Nat)
    (hk : k < m.atoms.length) :
    stepAtom (chainPState m k) ((m.atoms.getD k default).symbol) false =
      ⟨⟨m.atoms.take (k + 1), m.bonds.take k⟩, [], [], some k, 1, false⟩ := by
  have hblen : m.bonds.length = m.atoms.length - 1 := hm.2.2.1
  have hatom : (⟨(m.atoms.getD k default).symbol, 0, []⟩ : Atom) = m.atoms.getD k default := by
    obtain ⟨-, hch, hmd⟩ := hm.2.1 _ (getD_mem m.atoms k hk)
    rw [← hch, ← hmd]
  have htk : m.atoms.take k ++ [(⟨(m.atoms.getD k default).symbol, 0, []⟩ : Atom)] =
      m.atoms.take (k + 1) := by
    rw [hatom, ← take_succ_getD m.atoms k hk]
  have hlentk : (m.atoms.take k).length = k := by
    rw [List.length_take]; omega
  unfold stepAtom chainPState
  simp only []
  rw [if_neg Bool.false_ne_true, if_neg Bool.false_ne_true]
  by_cases hk0 : k = 0
  · subst hk0
    rw [if_pos rfl, if_pos rfl]
    rw [if_neg (by intro hc; exact Bool.noConfusion hc)]
    simp only [PState.mk.injEq, Molecule.mk.injEq]
    refine ⟨⟨htk, ?_⟩, ?_, ?_, ?_, ?_, ?_⟩ <;> trivial
  · have hkb : k - 1 < m.bonds.length := by omega
    have hbond : (⟨(k - 1, k), (m.bonds.getD (k - 1) default).order, false⟩ : Bond)
        = m.bonds.getD (k - 1) default := by
      obtain ⟨hat, har, -⟩ := hm.2.2.2 (k - 1) hkb
      rw [show k - 1 + 1 = k from by omega] at hat
      rw [← hat, ← har]
    have htb : m.bonds.take (k - 1) ++
        [(⟨(k - 1, k), (m.bonds.getD (k - 1) default).order, false⟩ : Bond)] =
        m.bonds.take k := by
      have h1 := take_succ_getD m.bonds (k - 1) hkb
      rw [show k - 1 + 1 = k from by omega] at h1
      rw [hbond]
      exact h1.symm
    rw [if_neg hk0]
    rw [if_neg hk0]
    rw [Option.getD_some]
    rw [if_pos Option.isSome_some]
    rw [hlentk, Bool.or_false]
    simp only [PState.mk.injEq, Molecule.mk.injEq]
    refine ⟨⟨htk, ?_⟩, ?_, ?_, ?_, ?_, ?_⟩ <;> trivial

theorem chainStr_head (m : Molecule) (hm : isChainMol m) (k r : Nat)
    (hk : k < m.atoms.length) :
    (((chainStrFrom m k (r + 1)).data).headD 'A').isLower = false := by
  have hvp : validPlainSymbol (m.atoms.getD k default).symbol :=
    (hm.2.1 _ (getD_mem m.atoms k hk)).1
  have hhead : ∀ tl : List Char,
      (((m.atoms.getD k default).symbol.data ++ tl).headD 'A').isLower = false := by
    intro tl
    rcases validPlain_shape _ hvp with ⟨u, hd, hu⟩ | ⟨u, l, hd, hu, hl⟩ <;> rw [hd]
    · rw [List.singleton_append]
      exact Bool.eq_false_iff.mpr (upper_not_lower u hu)
    · simp only [List.cons_append]
      exact Bool.eq_false_iff.mpr (upper_not_lower u hu)
  cases r with
  | zero =>
    have h0 := hhead []
    rw [List.append_nil] at h0
    exact h0
  | succ r' =>
    rw [chainStrFrom_step]
    rw [String.data_append, String.data_append, List.append_assoc]
    exact hhead _

theorem chainPState_succ_eq (m : Molecule) (k : Nat) (q : ℚ)
    (hq : (m.bonds.getD k default).order = q) :
    (⟨⟨m.atoms.take (k + 1), m.bonds.take k⟩, [], [], some k, q, false⟩ : PState) =
      chainPState m (k + 1) := by
  unfold chainPState
  rw [if_neg (Nat.succ_ne_zero k)]
  rw [if_neg (Nat.succ_ne_zero k)]
  simp only [Nat.add_sub_cancel]
  rw [hq]

theorem chain_parse (m : Molecule) (hm : isChainMol m) :
    ∀ r k, k + r = m.atoms.length →
      parseLoop (chainPState m k) (chainStrFrom m k r).data =
        Except.ok ⟨m.atoms, m.bonds⟩ := by
  have hblen : m.bonds.length = m.atoms.length - 1 := hm.2.2.1
  intro r
  induction r with
  | zero =>
    intro k hk
    have hk' : k = m.atoms.length := by omega
    subst hk'
    rw [show chainStrFrom m m.atoms.length 0 = "" from rfl]
    rw [show ("" : String).data = ([] : List Char) from rfl]
    rw [parseLoop.eq_def]
    simp only []
    rw [show (chainPState m m.atoms.length).rings = [] from rfl]
    rw [if_pos List.isEmpty_nil]
    have hmol : (chainPState m m.atoms.length).mol = (⟨m.atoms, m.bonds⟩ : Molecule) := by
      unfold chainPState
      simp only []
      rw [List.take_length]
      rw [← hblen]
      rw [List.take_length]
    rw [hmol]
  | succ r' ih =>
    intro k hk
    have hklt : k < m.atoms.length := by omega
    have hvp : validPlainSymbol (m.atoms.getD k default).symbol :=
      (hm.2.1 _ (getD_mem m.atoms k hklt)).1
    by_cases hr0 : r' = 0
    · subst hr0
      have h01 : chainStrFrom m k (0 + 1) = (m.atoms.getD k default).symbol := rfl
      rw [h01]
      rw [show (m.atoms.getD k default).symbol.data =
        (m.atoms.getD k default).symbol.data ++ ([] : List Char) from (List.append_nil _).symm]
      rw [scan_symbol _ _ _ hvp (by decide)]
      rw [stepAtom_chain m hm k hklt]
      rw [parseLoop.eq_def]
      simp only []
      rw [if_pos List.isEmpty_nil]
      have hk1 : k + 1 = m.atoms.length := by omega
      rw [hk1, List.take_length]
      rw [show k = m.bonds.length from by omega, List.take_length]
    · obtain ⟨r'', rfl⟩ : ∃ r'', r' = r'' + 1 := ⟨r' - 1, by omega⟩
      have hkb : k < m.bonds.length := by omega
      have har : (m.bonds.getD k default).aromatic = false := (hm.2.2.2 k hkb).2.1
      have hk1 : k + 1 < m.atoms.length := by omega
      rw [chainStrFrom_step]
      rw [String.data_append, String.data_append, List.append_assoc]
      rw [bondSymbolFor_eval _ har]
      rcases (hm.2.2.2 k hkb).2.2 with h1 | h2 | h3
      · rw [h1, BOND_SYMBOLS_one]
        rw [show ("" : String).data = ([] : List Char) from rfl, List.nil_append]
        rw [scan_symbol _ _ _ hvp (chainStr_head m hm (k + 1) r'' hk1)]
        rw [stepAtom_chain m hm k hklt]
        rw [chainPState_succ_eq m k 1 h1]
        exact ih (k + 1) (by omega)
      · rw [h2, BOND_SYMBOLS_two]
        rw [show ("=" : String).data = ['='] from rfl]
        have hteq : ((['='] ++ (chainStrFrom m (k + 1) (r'' + 1)).data).headD 'A').isLower
            = false := rfl
        rw [scan_symbol _ _ _ hvp hteq]
        rw [stepAtom_chain m hm k hklt]
        rw [List.singleton_append]
        rw [scan_bondchar _ '=' _ (Or.inr (Or.inl rfl))]
        simp only []
        rw [symbolOrder_eq]
        rw [show decide ('=' = ':') = false from rfl]
        rw [chainPState_succ_eq m k 2 h2]
        exact ih (k + 1) (by omega)
      · rw [h3, BOND_SYMBOLS_three]
        rw [show ("#" : String).data = ['#'] from rfl]
        have hthash : ((['#'] ++ (chainStrFrom m (k + 1) (r'' + 1)).data).headD 'A').isLower
            = false := rfl
        rw [scan_symbol _ _ _ hvp hthash]
        rw [stepAtom_chain m hm k hklt]
        rw [List.singleton_append]
        rw [scan_bondchar _ '#' _ (Or.inr (Or.inr (Or.inl rfl)))]
        simp only []
        rw [symbolOrder_hash]
        rw [show decide ('#' = ':') = false from rfl]
        rw [chainPState_succ_eq m k 3 h3]
        exact ih (k + 1) (by omega)

theorem chain_to_smiles (m : Molecule) (hm : isChainMol m) :
    to_smiles m = chainStrFrom m 0 m.atoms.length := by
  have hne : m.atoms ≠ [] := hm.1
  have hlen : 1 ≤ m.atoms.length := by
    cases h : m.atoms with
    | nil => exact absurd h hne
    | cons a l => simp
  unfold to_smiles
  rw [if_neg (by intro hc; exact hne (List.isEmpty_iff.mp hc))]
  have h := chain_traverse m hm m.atoms.length 0 hlen (by omega)
  rw [if_pos rfl] at h
  rw [show (⟨[], [], []⟩ : SState) = chainSState 0 from rfl]
  rw [h]

/-- C1: for a linear-chain molecule (plain symbols, consecutive single/double/
triple bonds), `to_smiles` produces a string that `parse_smiles` accepts and
re-parses to exactly the input molecule.  This is the amended round-trip: the
claimed round-trip for arbitrary molecules fails (see the counterexample). -/
theorem C1_chain_roundtrip (m : Molecule) (hm : isChainMol m) :
    parse_smiles (to_smiles m) = Except.ok m := by
  rw [chain_to_smiles m hm]
  unfold parse_smiles
  have h := chain_parse m hm m.atoms.length 0 (by omega)
  rw [show chainPState m 0 = initState from rfl] at h
  rw [show (⟨m.atoms, m.bonds⟩ : Molecule) = m from rfl] at h
  exact h

theorem C1_chain_roundtrip_witness :
    isChainMol molBranchReparsed ∧
      parse_smiles (to_smiles molBranchReparsed) = Except.ok molBranchReparsed := by
  have h : isChainMol molBranchReparsed := by decide
  exact ⟨h, C1_chain_roundtrip molBranchReparsed h⟩

end Orbital
